import Mathlib

/-!
Verification development for the pplka-explanations sync scripts.

The repository contains three TypeScript scripts that keep a relational
store of "explanation" rows and their links to "question" rows in sync
with a manifest (`meta.json`) plus a directory of content files:

* an incremental sync (diff against the previous manifest revision),
  which derives explanation ids with `uuidv5(path, uuidv5.URL)`;
* a single-link full sync (`scripts/sync-explanations.ts`), which derives
  ids from `XXH.h64(path, 0)` formatted as a UUID-like string;
* an ordered full sync (`scripts/insert-explanations.ts`), which derives
  ids with `uuidv5(path, uuidv5.URL)` and stores ordered links in a join
  table whose synthetic row ids come from `uuidv4()`.

This file shallowly embeds those scripts: byte-level SHA-1 / UUIDv5 /
XXH64 implementations for the id derivations, the diff computation, the
operation plan each script issues, and the interpretation of the issued
SQL against a simple relational-store state.  Machine integers are
modelled as `Nat` reduced modulo `2^32` / `2^64` where the source
performs fixed-width arithmetic.
-/

set_option maxRecDepth 100000

namespace Pplka

/-- UTF-8 encoding of a single character, as a list of byte values. -/
def utf8Char (c : Char) : List Nat :=
  let n := c.toNat
  if n < 128 then [n]
  else if n < 2048 then [192 + n / 64, 128 + n % 64]
  else if n < 65536 then [224 + n / 4096, 128 + n / 64 % 64, 128 + n % 64]
  else [240 + n / 262144, 128 + n / 4096 % 64, 128 + n / 64 % 64, 128 + n % 64]

/-- UTF-8 encoding of a string, as a list of byte values. -/
def utf8 (s : String) : List Nat :=
  (s.data.map utf8Char).flatten

/-- Modulus for 32-bit arithmetic. -/
def M32 : Nat := 4294967296

/-- Modulus for 64-bit arithmetic. -/
def M64 : Nat := 18446744073709551616

/-- Rotate a 32-bit value left by `n` bits. -/
def rotl32 (x n : Nat) : Nat :=
  ((x * 2 ^ n) % M32 + x / 2 ^ (32 - n)) % M32

/-- Rotate a 64-bit value left by `n` bits. -/
def rotl64 (x n : Nat) : Nat :=
  ((x * 2 ^ n) % M64 + x / 2 ^ (64 - n)) % M64

/-- SHA-1 round function, by round index. -/
def sha1F (t b c d : Nat) : Nat :=
  if t < 20 then (b &&& c) ||| ((b ^^^ 4294967295) &&& d)
  else if t < 40 then b ^^^ c ^^^ d
  else if t < 60 then (b &&& c) ||| (b &&& d) ||| (c &&& d)
  else b ^^^ c ^^^ d

/-- SHA-1 round constant, by round index. -/
def sha1K (t : Nat) : Nat :=
  if t < 20 then 1518500249
  else if t < 40 then 1859775393
  else if t < 60 then 2400959708
  else 3395469782

/-- Big-endian byte serialization of `n` into `k` bytes. -/
def beBytes (k n : Nat) : List Nat :=
  (List.range k).map (fun i => n / 2 ^ (8 * (k - 1 - i)) % 256)

/-- SHA-1 message padding: append `0x80`, zero bytes, and the 64-bit
big-endian bit length, reaching a multiple of 64 bytes. -/
def sha1Pad (msg : List Nat) : List Nat :=
  let z := (120 - (msg.length + 1) % 64) % 64
  msg ++ [128] ++ List.replicate z 0 ++ beBytes 8 (msg.length * 8)

/-- Group a 64-byte block into 32-bit big-endian words. -/
def toWords32 : List Nat → List Nat
  | b0 :: b1 :: b2 :: b3 :: rest =>
      (((b0 * 256 + b1) * 256 + b2) * 256 + b3) :: toWords32 rest
  | _ => []

/-- Extend the 16 words of a block to the 80-word SHA-1 schedule. -/
def sha1Extend (ws : List Nat) : List Nat :=
  (List.range 64).foldl
    (fun acc _ =>
      acc ++ [rotl32 (acc.getD (acc.length - 3) 0 ^^^ acc.getD (acc.length - 8) 0 ^^^
        acc.getD (acc.length - 14) 0 ^^^ acc.getD (acc.length - 16) 0) 1])
    ws

/-- One SHA-1 compression step: state `(a,b,c,d,e)` and `(round, word)`. -/
def sha1Step (s : Nat × Nat × Nat × Nat × Nat) (tw : Nat × Nat) :
    Nat × Nat × Nat × Nat × Nat :=
  let (a, b, c, d, e) := s
  let (t, w) := tw
  let tmp := (rotl32 a 5 + sha1F t b c d + e + sha1K t + w) % M32
  (tmp, a, rotl32 b 30, c, d)

/-- Process one 64-byte SHA-1 block. -/
def sha1Block (h : Nat × Nat × Nat × Nat × Nat) (block : List Nat) :
    Nat × Nat × Nat × Nat × Nat :=
  let w80 := sha1Extend (toWords32 block)
  let r := w80.enum.foldl sha1Step h
  ((h.1 + r.1) % M32, (h.2.1 + r.2.1) % M32, (h.2.2.1 + r.2.2.1) % M32,
   (h.2.2.2.1 + r.2.2.2.1) % M32, (h.2.2.2.2 + r.2.2.2.2) % M32)

/-- SHA-1 digest of a byte list, as 20 bytes. -/
def sha1 (msg : List Nat) : List Nat :=
  let padded := sha1Pad msg
  let h := (List.range (padded.length / 64)).foldl
    (fun h i => sha1Block h ((padded.drop (64 * i)).take 64))
    (1732584193, 4023233417, 2562383102, 271733878, 3285377520)
  beBytes 4 h.1 ++ beBytes 4 h.2.1 ++ beBytes 4 h.2.2.1 ++
    beBytes 4 h.2.2.2.1 ++ beBytes 4 h.2.2.2.2

/-- Lowercase hex digit for a value below 16. -/
def hexDigit (n : Nat) : Char :=
  if n < 10 then Char.ofNat (48 + n) else Char.ofNat (87 + n)

/-- Two lowercase hex digits of a byte. -/
def hex2 (b : Nat) : List Char :=
  [hexDigit (b / 16), hexDigit (b % 16)]

/-- Hex digits of `n` without leading zeros, with a fuel bound on the
number of digits (16 suffices for 64-bit values). -/
def hexNatAux : Nat → Nat → List Char
  | 0, _ => []
  | fuel + 1, n => if n = 0 then [] else hexNatAux fuel (n / 16) ++ [hexDigit (n % 16)]

/-- Hex rendering of a natural number, as produced by the JS
`UINT64.toString(16)`: lowercase, no leading zeros, `0` for zero. -/
def hexNat (n : Nat) : String :=
  if n = 0 then "0" else String.mk (hexNatAux 16 n)

/-- Bytes of the RFC 4122 URL namespace `6ba7b811-9dad-11d1-80b4-00c04fd430c8`. -/
def urlNamespaceBytes : List Nat :=
  [107, 167, 184, 17, 157, 173, 17, 209, 128, 180, 0, 192, 79, 212, 48, 200]

/-- Bytes of the RFC 4122 DNS namespace `6ba7b810-9dad-11d1-80b4-00c04fd430c8`
(used only for a test vector). -/
def dnsNamespaceBytes : List Nat :=
  [107, 167, 184, 16, 157, 173, 17, 209, 128, 180, 0, 192, 79, 212, 48, 200]

/-- UUID version 5 over a given namespace: SHA-1 of namespace bytes and
the UTF-8 name, version and variant bits forced, hyphenated lowercase hex. -/
def uuidv5Bytes (ns : List Nat) (name : String) : String :=
  let h := sha1 (ns ++ utf8 name)
  let b := fun i => h.getD i 0
  let b6 := b 6 % 16 + 80
  let b8 := b 8 % 64 + 128
  String.mk (hex2 (b 0) ++ hex2 (b 1) ++ hex2 (b 2) ++ hex2 (b 3) ++ [Char.ofNat 45] ++
    hex2 (b 4) ++ hex2 (b 5) ++ [Char.ofNat 45] ++ hex2 b6 ++ hex2 (b 7) ++ [Char.ofNat 45] ++
    hex2 b8 ++ hex2 (b 9) ++ [Char.ofNat 45] ++
    hex2 (b 10) ++ hex2 (b 11) ++ hex2 (b 12) ++ hex2 (b 13) ++ hex2 (b 14) ++ hex2 (b 15))

/-- The library call `uuidv5(name, uuidv5.URL)` used by the sync scripts. -/
def uuidv5Url (name : String) : String :=
  uuidv5Bytes urlNamespaceBytes name

/-- XXH64 prime 1. -/
def xxP1 : Nat := 11400714785074694791
/-- XXH64 prime 2. -/
def xxP2 : Nat := 14029467366897019727
/-- XXH64 prime 3. -/
def xxP3 : Nat := 1609587929392839161
/-- XXH64 prime 4. -/
def xxP4 : Nat := 9650029242287828579
/-- XXH64 prime 5. -/
def xxP5 : Nat := 2870177450012600261

/-- Little-endian read of `k` bytes at offset `off`. -/
def readLE (k : Nat) (l : List Nat) (off : Nat) : Nat :=
  (List.range k).foldr (fun i acc => acc * 256 + l.getD (off + i) 0) 0

/-- XXH64 accumulator round. -/
def xxhRound (acc lane : Nat) : Nat :=
  rotl64 ((acc + lane * xxP2) % M64) 31 * xxP1 % M64

/-- XXH64 accumulator merge step. -/
def xxhMerge (acc v : Nat) : Nat :=
  ((acc ^^^ xxhRound 0 v) * xxP1 + xxP4) % M64

/-- XXH64 final avalanche. -/
def xxhAvalanche (h : Nat) : Nat :=
  let h := h ^^^ h / 2 ^ 33
  let h := h * xxP2 % M64
  let h := h ^^^ h / 2 ^ 29
  let h := h * xxP3 % M64
  h ^^^ h / 2 ^ 32

/-- XXH64 hash of a byte list with the given seed, as implemented by the
`xxhashjs` library used in `scripts/sync-explanations.ts`. -/
def xxh64 (input : List Nat) (seed : Nat) : Nat :=
  let len := input.length
  let nStripes := len / 32
  let h0 :=
    if 32 ≤ len then
      let v := (List.range nStripes).foldl
        (fun (v : Nat × Nat × Nat × Nat) i =>
          let base := 32 * i
          (xxhRound v.1 (readLE 8 input base),
           xxhRound v.2.1 (readLE 8 input (base + 8)),
           xxhRound v.2.2.1 (readLE 8 input (base + 16)),
           xxhRound v.2.2.2 (readLE 8 input (base + 24))))
        ((seed + xxP1 + xxP2) % M64, (seed + xxP2) % M64, seed % M64,
         (M64 + seed - xxP4) % M64)
      let h := (rotl64 v.1 1 + rotl64 v.2.1 7 + rotl64 v.2.2.1 12 + rotl64 v.2.2.2 18) % M64
      xxhMerge (xxhMerge (xxhMerge (xxhMerge h v.1) v.2.1) v.2.2.1) v.2.2.2
    else (seed + xxP5) % M64
  let h1 := (h0 + len) % M64
  let tail := input.drop (nStripes * 32)
  let n8 := tail.length / 8
  let h2 := (List.range n8).foldl
    (fun h i => (rotl64 (h ^^^ xxhRound 0 (readLE 8 tail (8 * i))) 27 * xxP1 + xxP4) % M64) h1
  let tail2 := tail.drop (n8 * 8)
  let h3 :=
    if 4 ≤ tail2.length then
      (rotl64 (h2 ^^^ readLE 4 tail2 0 * xxP1 % M64) 23 * xxP2 + xxP3) % M64
    else h2
  let tail3 := if 4 ≤ tail2.length then tail2.drop 4 else tail2
  let h4 := tail3.foldl (fun h b => rotl64 (h ^^^ b * xxP5 % M64) 11 * xxP1 % M64) h3
  xxhAvalanche h4

/-- One manifest entry of `meta.json` in its array shape: a content file
path and the question external ids that must reference it (zod schema
`z.array(z.object({file, questions}))`). -/
structure MetaEntry where
  file : String
  questions : List String
deriving DecidableEq, Repr

/-- One row of the `nauka-ppla_question` table, restricted to the columns
the scripts touch: internal `id`, `externalId`, and the single-link
`explanationId` column. -/
@[ext]
structure Question where
  id : String
  externalId : String
  explanationId : Option String
deriving DecidableEq, Repr

/-- Single-link store state: the `nauka-ppla_explanation` table as an
`(id, explanation)` row list and the `nauka-ppla_question` table. -/
@[ext]
structure Store where
  explanations : List (String × String)
  questions : List Question
deriving DecidableEq, Repr

/-- File system contents, keyed by manifest-relative path. -/
def Fs := List (String × String)

/-- A store mutation issued by a sync script, i.e. one SQL statement:
scoped unlink (`UPDATE ... SET explanationId = NULL WHERE externalId = qid
AND explanationId = eid`), explanation delete, explanation upsert
(`INSERT ... ON CONFLICT (id) DO UPDATE`), and unscoped link
(`UPDATE ... SET explanationId = eid WHERE externalId = qid`). -/
inductive Op where
  | unlinkScoped (qid eid : String)
  | deleteExp (eid : String)
  | upsertExp (eid content : String)
  | link (qid eid : String)
deriving DecidableEq, Repr

/-- Insert-or-update of an explanation row keyed by id, as performed by
`INSERT ... ON CONFLICT (id) DO UPDATE SET explanation = EXCLUDED.explanation`. -/
def upsertRow (es : List (String × String)) (eid c : String) : List (String × String) :=
  if es.any (fun p => p.1 = eid) then
    es.map (fun p => if p.1 = eid then (eid, c) else p)
  else es ++ [(eid, c)]

/-- Interpretation of one issued SQL statement on the single-link store. -/
def applyOp (s : Store) : Op → Store
  | Op.unlinkScoped qid eid =>
      { s with questions := s.questions.map (fun q =>
          if q.externalId = qid ∧ q.explanationId = some eid then
            { q with explanationId := none } else q) }
  | Op.deleteExp eid =>
      { s with explanations := s.explanations.filter (fun p => ¬ p.1 = eid) }
  | Op.upsertExp eid c =>
      { s with explanations := upsertRow s.explanations eid c }
  | Op.link qid eid =>
      { s with questions := s.questions.map (fun q =>
          if q.externalId = qid then { q with explanationId := some eid } else q) }

/-- Sequential execution of a statement list against the store. -/
def applyOps (s : Store) (ops : List Op) : Store :=
  ops.foldl applyOp s

namespace Incremental

/-- Identity derivation of the incremental sync script:
`uuidv5(filePath, uuidv5.URL)`. -/
def generateExplanationId (filePath : String) : String :=
  uuidv5Url filePath

/-- Lookup in a JS `Map` built by `new Map(meta.map((e) => [e.file, e]))`:
for duplicate keys the last inserted entry wins. -/
def mapGet (meta : List MetaEntry) (file : String) : Option MetaEntry :=
  meta.reverse.find? (fun e => e.file = file)

/-- Entries present in the old manifest whose path is absent from the new
one (`oldMeta.filter((e) => !newMap.has(e.file))`). -/
def removedEntries (oldMeta newMeta : List MetaEntry) : List MetaEntry :=
  oldMeta.filter (fun e => ¬ newMeta.any (fun n => n.file = e.file))

/-- Entries present in the new manifest whose path is absent from the old
one (`newMeta.filter((e) => !oldMap.has(e.file))`). -/
def addedEntries (oldMeta newMeta : List MetaEntry) : List MetaEntry :=
  newMeta.filter (fun e => ¬ oldMeta.any (fun o => o.file = e.file))

/-- Entries of the new manifest whose path also occurs in the old one
(`newMeta.filter((e) => oldMap.has(e.file))`). -/
def keptEntries (oldMeta newMeta : List MetaEntry) : List MetaEntry :=
  newMeta.filter (fun e => oldMeta.any (fun o => o.file = e.file))

/-- Boolean ordering on strings by their character code sequences, the
default JS `Array.prototype.sort` comparator on strings. -/
def codeLe : List Nat → List Nat → Bool
  | [], _ => true
  | _ :: _, [] => false
  | a :: as, b :: bs => if a < b then true else if b < a then false else codeLe as bs

/-- Insert into a list sorted by `codeLe`. -/
def insertSorted (x : String) : List String → List String
  | [] => [x]
  | y :: ys =>
      if codeLe (x.data.map Char.toNat) (y.data.map Char.toNat) then x :: y :: ys
      else y :: insertSorted x ys

/-- Ascending sort of a string list, the result of `[...xs].sort()` in JS.
On equal sorted outputs, comparing `JSON.stringify` of the two sorted
arrays (as the script does) is string-list equality. -/
def sortStrings (l : List String) : List String :=
  l.foldr insertSorted []

/-- Condition under which a kept entry counts as question-set-modified:
the sorted question lists of the old and new entry differ. -/
def modCond (oldMeta : List MetaEntry) (e : MetaEntry) : Bool :=
  match mapGet oldMeta e.file with
  | some o => ¬ sortStrings o.questions = sortStrings e.questions
  | none => false

/-- Kept entries whose linked-question set changed
(`kept.filter(...)` with the `JSON.stringify`-of-sorted comparison). -/
def questionsModified (oldMeta newMeta : List MetaEntry) : List MetaEntry :=
  (keptEntries oldMeta newMeta).filter (modCond oldMeta)

/-- Paths already covered by the added or question-modified groups
(`new Set([...added.map(f), ...questionsModified.map(f)])`). -/
def alreadyHandled (oldMeta newMeta : List MetaEntry) : List String :=
  (addedEntries oldMeta newMeta).map (fun e => e.file) ++
    (questionsModified oldMeta newMeta).map (fun e => e.file)

/-- Kept entries whose content file changed without their question set
changing (`kept.filter((e) => !alreadyHandled.has(e.file) && changedFiles.has(e.file))`). -/
def contentOnly (oldMeta newMeta : List MetaEntry) (changed : List String) : List MetaEntry :=
  (keptEntries oldMeta newMeta).filter
    (fun e => ¬ (alreadyHandled oldMeta newMeta).contains e.file ∧ changed.contains e.file)

/-- Modelled from the spec: the fifth diff class of §4.2, `unchanged`.
The script never materializes it (unchanged entries are simply excluded
from every loop); per the spec it is the kept entries that are neither
question-modified nor content-changed. -/
def unchangedEntries (oldMeta newMeta : List MetaEntry) (changed : List String) :
    List MetaEntry :=
  (keptEntries oldMeta newMeta).filter
    (fun e => ¬ modCond oldMeta e ∧ ¬ changed.contains e.file)

/-- Entries whose explanation row gets upserted:
`[...added, ...questionsModified, ...contentOnly]`. -/
def toUpsert (oldMeta newMeta : List MetaEntry) (changed : List String) : List MetaEntry :=
  addedEntries oldMeta newMeta ++ questionsModified oldMeta newMeta ++
    contentOnly oldMeta newMeta changed

/-- Statements issued for one removed entry: a scoped unlink per declared
question, then the explanation delete. -/
def removedOps (entry : MetaEntry) : List Op :=
  entry.questions.map (fun q => Op.unlinkScoped q (generateExplanationId entry.file)) ++
    [Op.deleteExp (generateExplanationId entry.file)]

/-- Statements issued for one entry of the upsert loop: nothing when the
content file cannot be read (the script warns and `continue`s), otherwise
the explanation upsert followed by an unscoped link per declared question. -/
def upsertOps (fs : Fs) (entry : MetaEntry) : List Op :=
  match fs.lookup entry.file with
  | none => []
  | some content =>
      Op.upsertExp (generateExplanationId entry.file) content ::
        entry.questions.map (fun q => Op.link q (generateExplanationId entry.file))

/-- Statements issued for one question-modified entry in the final unlink
loop: a scoped unlink for each question present in the old entry but
absent from the new one.  The script's `oldMap.get(entry.file)!`
assertion always succeeds for these entries; the `getD` default is
never reached. -/
def modUnlinkOps (oldMeta : List MetaEntry) (entry : MetaEntry) : List Op :=
  let old := (mapGet oldMeta entry.file).getD entry
  (old.questions.filter (fun q => ¬ entry.questions.contains q)).map
    (fun q => Op.unlinkScoped q (generateExplanationId entry.file))

/-- Full statement sequence of the incremental sync: the removed loop,
then the upsert loop over `toUpsert`, then the unlink loop over the
question-modified entries. -/
def syncTrace (oldMeta newMeta : List MetaEntry) (changed : List String) (fs : Fs) :
    List Op :=
  ((removedEntries oldMeta newMeta).map removedOps).flatten ++
    ((toUpsert oldMeta newMeta changed).map (upsertOps fs)).flatten ++
    ((questionsModified oldMeta newMeta).map (modUnlinkOps oldMeta)).flatten

/-- Statement sequence including the script's early `Nothing to do`
return: when nothing is removed, upserted or modified, the script exits
before issuing any statement. -/
def syncPlan (oldMeta newMeta : List MetaEntry) (changed : List String) (fs : Fs) :
    List Op :=
  if (removedEntries oldMeta newMeta).length = 0 ∧
      (toUpsert oldMeta newMeta changed).length = 0 ∧
      (questionsModified oldMeta newMeta).length = 0 then []
  else syncTrace oldMeta newMeta changed fs

/-- File-not-found warnings emitted by the upsert loop, in loop order. -/
def syncWarnings (oldMeta newMeta : List MetaEntry) (changed : List String) (fs : Fs) :
    List String :=
  if (removedEntries oldMeta newMeta).length = 0 ∧
      (toUpsert oldMeta newMeta changed).length = 0 ∧
      (questionsModified oldMeta newMeta).length = 0 then []
  else
    ((toUpsert oldMeta newMeta changed).map (fun e =>
      match fs.lookup e.file with
      | none => [e.file]
      | some _ => [])).flatten

/-- Resulting store state of one incremental sync run. -/
def runSync (oldMeta newMeta : List MetaEntry) (changed : List String) (fs : Fs)
    (s : Store) : Store :=
  applyOps s (syncPlan oldMeta newMeta changed fs)

/-- Modelled from the spec: the §4.4 claim that the applier executes the
plan entry group by entry group, in the order removed, then added, then
linksModified, then contentOnly, with every operation of a linksModified
entry inside that group. -/
def specGroupOrder (oldMeta newMeta : List MetaEntry) (changed : List String) (fs : Fs) :
    Prop :=
  syncPlan oldMeta newMeta changed fs =
    ((removedEntries oldMeta newMeta).map removedOps).flatten ++
      ((addedEntries oldMeta newMeta).map (upsertOps fs)).flatten ++
      ((questionsModified oldMeta newMeta).map
        (fun e => upsertOps fs e ++ modUnlinkOps oldMeta e)).flatten ++
      ((contentOnly oldMeta newMeta changed).map (upsertOps fs)).flatten

end Incremental

/-- Effect of one statement on a single question row. -/
def qStep (q : Question) : Op → Question
  | Op.unlinkScoped qid eid =>
      if q.externalId = qid ∧ q.explanationId = some eid then
        { q with explanationId := none } else q
  | Op.link qid eid =>
      if q.externalId = qid then { q with explanationId := some eid } else q
  | _ => q

/-- Effect of one statement on the explanation table. -/
def eStep (es : List (String × String)) : Op → List (String × String)
  | Op.deleteExp eid => es.filter (fun p => ¬ p.1 = eid)
  | Op.upsertExp eid c => upsertRow es eid c
  | _ => es

/-- The upsert payloads of a statement list. -/
def ePairs (ops : List Op) : List (String × String) :=
  ops.filterMap (fun op =>
    match op with
    | Op.upsertExp eid c => some (eid, c)
    | _ => none)

/-- Sequential upserts of a payload list. -/
def applyU (ps : List (String × String)) (es : List (String × String)) :
    List (String × String) :=
  ps.foldl (fun es p => upsertRow es p.1 p.2) es

/-- Last value a payload list writes at a key. -/
def lastVal (ps : List (String × String)) (k : String) : Option String :=
  ps.foldl (fun acc p => if p.1 = k then some p.2 else acc) none

namespace FullSync

/-- Identity derivation of `scripts/sync-explanations.ts`: XXH64 of the
path with seed 0, rendered as `hash.toString(16)` and spliced into a
UUID-like shape via `slice(0,8)`, `slice(8,12)`, `slice(12,16)`. -/
def generateExplanationId (filePath : String) : String :=
  let hash := (hexNat (xxh64 (utf8 filePath) 0)).data
  String.mk (hash.take 8 ++ [Char.ofNat 45] ++ ((hash.drop 8).take 4) ++ [Char.ofNat 45] ++
    ((hash.drop 12).take 4)) ++ "-0000-000000000000"

/-- Statements issued for one meta entry of the single-link full sync:
nothing when the content file is absent from the loaded map (warn and
`continue`), otherwise the explanation upsert followed by an unscoped
link per declared question. -/
def entryOps (files : Fs) (entry : MetaEntry) : List Op :=
  match files.lookup entry.file with
  | none => []
  | some content =>
      Op.upsertExp (generateExplanationId entry.file) content ::
        entry.questions.map (fun q => Op.link q (generateExplanationId entry.file))

/-- Full statement sequence of the single-link full sync. -/
def fullTrace (meta : List MetaEntry) (files : Fs) : List Op :=
  (meta.map (entryOps files)).flatten

/-- Resulting store state of one single-link full sync run. -/
def runFull (meta : List MetaEntry) (files : Fs) (s : Store) : Store :=
  applyOps s (fullTrace meta files)

end FullSync

namespace Ordered

/-- One row of the `nauka-ppla_question_to_explanation` join table:
question internal id, explanation id, order, and the synthetic `uuidv4()`
primary key. -/
structure LinkRow where
  questionId : String
  explanationId : String
  order : Nat
  rowId : String
deriving DecidableEq, Repr

/-- Store state of the ordered variant: explanation rows, question rows
as `(internal id, externalId)` pairs, and the join table. -/
@[ext]
structure OStore where
  explanations : List (String × String)
  questions : List (String × String)
  links : List LinkRow
deriving DecidableEq, Repr

/-- Identity derivation of `scripts/insert-explanations.ts`:
`uuidv5(filePath, uuidv5.URL)`. -/
def generateExplanationId (filePath : String) : String :=
  uuidv5Url filePath

/-- The synthetic primary key drawn for one join-table insert.  The script
calls `uuidv4()`; its randomness is modelled as a supply of globally
fresh identifiers indexed by a counter threaded through the run, so that
two distinct draws are distinct, as random UUIDs are. -/
def freshRowId (n : Nat) : String :=
  "uuid-" ++ toString n

/-- Deduplication with JS `Set` semantics (`[...new Set(l)]`): first
occurrence kept, insertion order preserved. -/
def jsSetDedupAux (seen : List String) : List String → List String
  | [] => []
  | x :: xs =>
      if seen.contains x then jsSetDedupAux seen xs
      else x :: jsSetDedupAux (x :: seen) xs

/-- Deduplication with JS `Set` semantics. -/
def jsSetDedup (l : List String) : List String :=
  jsSetDedupAux [] l

/-- Phase 1 of the ordered full sync: upsert every unique declared file
whose content was loaded, warning and skipping the missing ones. -/
def upsertPhase (fmap : Fs) (files : List String) (es : List (String × String)) :
    List (String × String) :=
  files.foldl
    (fun es f =>
      match fmap.lookup f with
      | none => es
      | some c => upsertRow es (generateExplanationId f) c)
    es

/-- Join rows inserted for one question's ordered file list, starting at
order index `ord` with fresh-id counter `ctr`; files missing from the
loaded map are skipped (their order index is still consumed). -/
def insertRows (qid : String) (fmap : Fs) : List String → Nat → Nat → List LinkRow × Nat
  | [], _, ctr => ([], ctr)
  | f :: rest, ord, ctr =>
      match fmap.lookup f with
      | none => insertRows qid fmap rest (ord + 1) ctr
      | some _ =>
          let r := insertRows qid fmap rest (ord + 1) (ctr + 1)
          (⟨qid, generateExplanationId f, ord, freshRowId ctr⟩ :: r.1, r.2)

/-- Phase 2 step for one `(question external id, ordered files)` pair of
the meta record: skip when the file list is empty, skip when the question
is not found, otherwise delete the question's join rows and insert the
fresh ordered rows. -/
def processQuestion (fmap : Fs) (sc : OStore × Nat) (q : String × List String) :
    OStore × Nat :=
  let (s, ctr) := sc
  if q.2.length = 0 then (s, ctr)
  else
    match s.questions.find? (fun p => p.2 = q.1) with
    | none => (s, ctr)
    | some qrow =>
        let cleared := s.links.filter (fun r => ¬ r.questionId = qrow.1)
        let rs := insertRows qrow.1 fmap q.2 0 ctr
        ({ s with links := cleared ++ rs.1 }, rs.2)

/-- The unique declared file paths, in first-occurrence order
(`[...new Set(questionIds.flatMap((q) => meta[q]))]`). -/
def uniqueFiles (meta : List (String × List String)) : List String :=
  jsSetDedup (meta.map (fun q => q.2)).flatten

/-- One run of the ordered full sync over a meta record (a question
external id to ordered file list mapping), returning the resulting store
and the advanced fresh-id counter. -/
def runOrdered (meta : List (String × List String)) (fmap : Fs) (s : OStore)
    (ctr : Nat) : OStore × Nat :=
  let s1 := { s with explanations := upsertPhase fmap (uniqueFiles meta) s.explanations }
  meta.foldl (processQuestion fmap) (s1, ctr)

/-- Projection of a join row that drops the synthetic `uuidv4` key. -/
def projRow (r : LinkRow) : String × String × Nat :=
  (r.questionId, r.explanationId, r.order)

/-- Projection of the ordered store that drops the synthetic join-row
keys but keeps every other column and the row counts and order. -/
def projStore (s : OStore) : List (String × String) × List (String × String) ×
    List (String × String × Nat) :=
  (s.explanations, s.questions, s.links.map projRow)

/-- Branch name baked into the raw-content base URL. -/
def BRANCH : String := "feat/profil-skrzydla"

/-- Base URL for raw SVG content on GitHub. -/
def SVGS_BASE_URL : String :=
  "https://raw.githubusercontent.com/fmkra/pplka-explanations/refs/heads/" ++ BRANCH ++
    "/explanations/"

/-- Characters `encodeURIComponent` leaves unescaped: ASCII alphanumerics
and `- _ . ! ~ * ( )` and the apostrophe (codes 45 95 46 33 126 42 39 40 41). -/
def uriUnreserved (c : Nat) : Bool :=
  (65 ≤ c ∧ c ≤ 90) ∨ (97 ≤ c ∧ c ≤ 122) ∨ (48 ≤ c ∧ c ≤ 57) ∨
    c = 45 ∨ c = 95 ∨ c = 46 ∨ c = 33 ∨ c = 126 ∨ c = 42 ∨ c = 39 ∨ c = 40 ∨ c = 41

/-- Uppercase hex digit for a value below 16. -/
def hexDigitUpper (n : Nat) : Char :=
  if n < 10 then Char.ofNat (48 + n) else Char.ofNat (55 + n)

/-- Percent-escape of one byte, as `%XX` with uppercase hex. -/
def percentByte (b : Nat) : List Char :=
  [Char.ofNat 37, hexDigitUpper (b / 16), hexDigitUpper (b % 16)]

/-- The JS `encodeURIComponent`: unreserved characters kept, every other
character percent-escaped byte-by-byte in UTF-8. -/
def encodeURIComponent (s : String) : String :=
  String.mk ((s.data.map (fun c =>
    if uriUnreserved c.toNat then [c] else (utf8Char c).map percentByte |>.flatten)).flatten)

/-- Boolean suffix test on strings by their character sequences, the JS
`String.prototype.endsWith`. -/
def endsWithB (s suffix : String) : Bool :=
  List.isSuffixOf suffix.data s.data

/-- Markdown image reference generated for an SVG file at the given
manifest-relative path. -/
def svgContent (relativePath : String) : String :=
  "![](" ++ SVGS_BASE_URL ++ encodeURIComponent relativePath ++ ")"

/-- A directory entry on disk: a plain file with content bytes, or a
subdirectory. -/
inductive FsEntry where
  | file (name content : String)
  | dir (name : String) (entries : List FsEntry)

/-- The recursive walk of `readExplanationsDir` in
`scripts/insert-explanations.ts`: directories are recursed into, `.md`
files are loaded with their content, `.svg` files are loaded with a
generated markdown image reference instead of their bytes, and every
other file is ignored.  `pre` accumulates the path relative to the
explanations directory. -/
def readExplanationsDir : List FsEntry → String → List (String × String)
  | [], _ => []
  | FsEntry.file name c :: rest, pre =>
      (if endsWithB name ".md" then [(pre ++ name, c)]
       else if endsWithB name ".svg" then [(pre ++ name, svgContent (pre ++ name))]
       else []) ++ readExplanationsDir rest pre
  | FsEntry.dir name sub :: rest, pre =>
      readExplanationsDir sub (pre ++ name ++ "/") ++ readExplanationsDir rest pre

/-- Internal ids of the questions the phase-2 loop actually processes:
manifest entries with a nonempty file list whose question resolves in the
store. -/
def processedIds (meta : List (String × List String)) (qs : List (String × String)) :
    List String :=
  meta.filterMap (fun q =>
    if q.2.length = 0 then none
    else (qs.find? (fun p => p.2 = q.1)).map (fun p => p.1))

/-- The join rows phase 2 inserts, with the fresh-id counter threaded in
manifest order. -/
def plannedRows (fmap : Fs) (qs : List (String × String)) :
    List (String × List String) → Nat → List LinkRow × Nat
  | [], ctr => ([], ctr)
  | q :: meta, ctr =>
      if q.2.length = 0 then plannedRows fmap qs meta ctr
      else
        match qs.find? (fun p => p.2 = q.1) with
        | none => plannedRows fmap qs meta ctr
        | some qrow =>
            let rs := insertRows qrow.1 fmap q.2 0 ctr
            let rest := plannedRows fmap qs meta rs.2
            (rs.1 ++ rest.1, rest.2)

end Ordered

/-- Test vector: SHA-1 of "abc". -/
theorem sha1_abc :
    sha1 (utf8 "abc") =
      [169, 153, 62, 54, 71, 6, 129, 106, 186, 62, 37, 113, 120, 80, 194, 108,
       156, 208, 216, 157] := by decide

/-- Test vector: UUIDv5 of "python.org" in the DNS namespace, as in the
Python standard library documentation. -/
theorem uuidv5_dns_python :
    uuidv5Bytes dnsNamespaceBytes "python.org" = "886313e1-3b8a-5372-9b90-0c9aee199e5d" := by
  decide

/-- Test vector: XXH64 of the empty input with seed 0. -/
theorem xxh64_empty : xxh64 (utf8 "") 0 = 17241709254077376921 := by decide

/-- Test vector: XXH64 of "a" with seed 0. -/
theorem xxh64_a : xxh64 (utf8 "a") 0 = 15154266338359012955 := by decide

/-- C1, counterexample: the claim that every script of the system derives
the same explanation id for the same path fails.  For the path `a.md`,
the xxhash-based derivation of `scripts/sync-explanations.ts` and the
UUIDv5-based derivation of the incremental sync produce different ids. -/
theorem c1_cross_script_ids_differ :
    FullSync.generateExplanationId "a.md" ≠ Incremental.generateExplanationId "a.md" := by
  decide

/-- C1, amended: each script's derivation is a pure function of the path
alone, hence deterministic across calls and process runs and independent
of the file's content; the incremental sync and the ordered full sync
agree on the derived id for every path (both compute UUIDv5 in the URL
namespace), while the single-link full sync uses a different, xxhash-based
scheme. -/
theorem c1_uuid_scripts_agree (p : String) :
    Incremental.generateExplanationId p = Ordered.generateExplanationId p := rfl

/-- C6, counterexample: in scenario C the plan does not leave Q1's link
untouched.  The plan contains an unscoped link statement for Q1, and a
store in which Q1 had been repointed at explanation `X` ends the run with
Q1 pointing at `derive("c.md")` instead. -/
theorem c6_q1_link_overwritten :
    Op.link "Q1" (Incremental.generateExplanationId "c.md") ∈
      Incremental.syncPlan [⟨"c.md", ["Q1"]⟩] [⟨"c.md", ["Q1", "Q2"]⟩] [] [("c.md", "body")] ∧
    (Incremental.runSync [⟨"c.md", ["Q1"]⟩] [⟨"c.md", ["Q1", "Q2"]⟩] [] [("c.md", "body")]
        ⟨[], [⟨"q1", "Q1", some "X"⟩, ⟨"q2", "Q2", none⟩]⟩).questions.find?
      (fun q => q.externalId = "Q1") =
      some ⟨"q1", "Q1", some (Incremental.generateExplanationId "c.md")⟩ ∧
    Incremental.generateExplanationId "c.md" ≠ "X" := by decide

/-- C6, amended: for `old=[{c.md,[Q1]}]`, `new=[{c.md,[Q1,Q2]}]` with
`c.md` readable, the entry is classified linksModified and the plan
upserts the content and links both Q1 and Q2 to `derive("c.md")` (Q1 is
re-pointed at the same id), and contains no unlink whatsoever. -/
theorem c6_scenario_c_plan :
    Incremental.questionsModified [⟨"c.md", ["Q1"]⟩] [⟨"c.md", ["Q1", "Q2"]⟩] =
      [⟨"c.md", ["Q1", "Q2"]⟩] ∧
    Incremental.syncPlan [⟨"c.md", ["Q1"]⟩] [⟨"c.md", ["Q1", "Q2"]⟩] [] [("c.md", "body")] =
      [Op.upsertExp (Incremental.generateExplanationId "c.md") "body",
       Op.link "Q1" (Incremental.generateExplanationId "c.md"),
       Op.link "Q2" (Incremental.generateExplanationId "c.md")] ∧
    (Incremental.syncPlan [⟨"c.md", ["Q1"]⟩] [⟨"c.md", ["Q1", "Q2"]⟩] [] [("c.md", "body")]).all
      (fun op =>
        match op with
        | Op.unlinkScoped _ _ => false
        | _ => true) = true := by decide

/-- C7, counterexample: the claim that a linksModified entry's explanation
row is upserted only if its content also changed fails.  With an empty
changed-path set, `c.md` is question-set-modified and its row is upserted
anyway. -/
theorem c7_upsert_without_content_change :
    Op.upsertExp (Incremental.generateExplanationId "c.md") "body" ∈
      Incremental.syncPlan [⟨"c.md", ["Q1"]⟩] [⟨"c.md", ["Q1", "Q2"]⟩] [] [("c.md", "body")] ∧
    "c.md" ∉ ([] : List String) := by decide

/-- C5, counterexample: the plan is not grouped removed, added,
linksModified, contentOnly.  With one question-modified entry and one
content-only entry, the question-modified entry's scoped unlink is issued
after the content-only entry's upsert. -/
theorem c5_group_order_violated :
    ¬ Incremental.specGroupOrder [⟨"qm.md", ["Q1"]⟩, ⟨"co.md", ["Q2"]⟩]
        [⟨"qm.md", []⟩, ⟨"co.md", ["Q2"]⟩] ["co.md"] [("qm.md", "m"), ("co.md", "c")] := by
  unfold Incremental.specGroupOrder
  decide

/-- C8, counterexample: a missing content file does not skip only the
entry's content-affecting operations; the entry's link operations are
skipped as well.  For an added entry `m.md` with question Q1 and an empty
file system, the run issues no statement at all (in particular no link of
Q1) and warns about `m.md`. -/
theorem c8_links_also_skipped :
    Incremental.syncPlan [] [⟨"m.md", ["Q1"]⟩] [] [] = [] ∧
    Incremental.syncWarnings [] [⟨"m.md", ["Q1"]⟩] [] [] = ["m.md"] := by decide

/-- C9, counterexample: after a fully successful ordered sync (no missing
files, no unresolved questions), a question whose manifest entry declares
an empty file list keeps its stale link row, so its stored links do not
match the declared (empty) sequence. -/
theorem c9_empty_list_keeps_stale_links :
    (Ordered.runOrdered [("Q", [])] [] ⟨[], [("q1", "Q")], [⟨"q1", "E", 0, "r0"⟩]⟩ 0).1.links.filter
      (fun r => r.questionId = "q1") ≠ [] := by decide

/-- C4, counterexample: applying the ordered full sync twice does not
leave the store state identical: the delete-and-reinsert of the join rows
draws fresh synthetic `uuidv4` row ids, so the second run's state differs
from the first run's in the join-row primary key. -/
theorem c4_ordered_resync_not_identical :
    (Ordered.runOrdered [("Q", ["a.md"])] [("a.md", "x")]
        (Ordered.runOrdered [("Q", ["a.md"])] [("a.md", "x")] ⟨[], [("q1", "Q")], []⟩ 0).1
        (Ordered.runOrdered [("Q", ["a.md"])] [("a.md", "x")] ⟨[], [("q1", "Q")], []⟩ 0).2).1 ≠
      (Ordered.runOrdered [("Q", ["a.md"])] [("a.md", "x")] ⟨[], [("q1", "Q")], []⟩ 0).1 := by
  decide

/-- A flatten over the upsert loop ignores entries with unreadable files,
since those contribute no statements. -/
theorem flatten_upsertOps_filter (fs : Fs) (l : List MetaEntry) :
    (l.map (Incremental.upsertOps fs)).flatten =
      ((l.filter (fun e => (fs.lookup e.file).isSome)).map (Incremental.upsertOps fs)).flatten := by
  induction l with
  | nil => rfl
  | cons e t ih =>
      cases hl : fs.lookup e.file with
      | none => simp [List.filter_cons, Incremental.upsertOps, hl, ih]
      | some c => simp [List.filter_cons, Incremental.upsertOps, hl, ih]

/-- The warnings of the upsert loop are exactly the files of the entries
whose content could not be read, in loop order. -/
theorem flatten_warnings_filter (fs : Fs) (l : List MetaEntry) :
    (l.map (fun e =>
      match fs.lookup e.file with
      | none => [e.file]
      | some _ => ([] : List String))).flatten =
      ((l.filter (fun e => (fs.lookup e.file).isNone)).map MetaEntry.file) := by
  induction l with
  | nil => rfl
  | cons e t ih =>
      cases hl : fs.lookup e.file with
      | none => simp [List.filter_cons, hl, ih]
      | some c => simp [List.filter_cons, hl, ih]

/-- C5, amended: the incremental sync issues its statements in phases, in
this order: all statements for removed entries; then the upsert-and-link
statements for added, linksModified and contentOnly entries, group by
group in that order; and finally the scoped unlinks of the linksModified
entries, after the contentOnly group.  In particular every removal is
applied before any addition or modification. -/
theorem c5_phase_order (oldMeta newMeta : List MetaEntry) (changed : List String) (fs : Fs) :
    Incremental.syncPlan oldMeta newMeta changed fs =
      ((Incremental.removedEntries oldMeta newMeta).map Incremental.removedOps).flatten ++
      ((Incremental.addedEntries oldMeta newMeta).map (Incremental.upsertOps fs)).flatten ++
      ((Incremental.questionsModified oldMeta newMeta).map (Incremental.upsertOps fs)).flatten ++
      ((Incremental.contentOnly oldMeta newMeta changed).map (Incremental.upsertOps fs)).flatten ++
      ((Incremental.questionsModified oldMeta newMeta).map
        (Incremental.modUnlinkOps oldMeta)).flatten := by
  unfold Incremental.syncPlan
  split
  · next h =>
      obtain ⟨h1, h2, h3⟩ := h
      rw [List.length_eq_zero] at h1 h2 h3
      rw [Incremental.toUpsert, List.append_eq_nil, List.append_eq_nil] at h2
      simp [h1, h2.1.1, h2.1.2, h2.2]
  · unfold Incremental.syncTrace Incremental.toUpsert
    simp [List.map_append, List.flatten_append, List.append_assoc]

/-- C8, amended: an unreadable content file makes the applier skip all of
that entry's statements (the upsert and the links alike) with a warning
naming the file, while every other entry and the final scoped-unlink loop
are processed unchanged; the run never aborts. -/
theorem c8_missing_file_skips_entry (oldMeta newMeta : List MetaEntry) (changed : List String)
    (fs : Fs) :
    Incremental.syncPlan oldMeta newMeta changed fs =
      ((Incremental.removedEntries oldMeta newMeta).map Incremental.removedOps).flatten ++
      (((Incremental.toUpsert oldMeta newMeta changed).filter
          (fun e => (fs.lookup e.file).isSome)).map (Incremental.upsertOps fs)).flatten ++
      ((Incremental.questionsModified oldMeta newMeta).map
        (Incremental.modUnlinkOps oldMeta)).flatten ∧
    Incremental.syncWarnings oldMeta newMeta changed fs =
      ((Incremental.toUpsert oldMeta newMeta changed).filter
        (fun e => (fs.lookup e.file).isNone)).map MetaEntry.file := by
  constructor
  · unfold Incremental.syncPlan
    split
    · next h =>
        obtain ⟨h1, h2, h3⟩ := h
        rw [List.length_eq_zero] at h1 h2 h3
        simp [h1, h2, h3]
    · unfold Incremental.syncTrace
      rw [flatten_upsertOps_filter]
  · unfold Incremental.syncWarnings
    split
    · next h =>
        obtain ⟨h1, h2, h3⟩ := h
        rw [List.length_eq_zero] at h1 h2 h3
        simp [h2]
    · rw [flatten_warnings_filter]

/-- Membership in the plan implies the early-exit branch was not taken,
so the plan is the full trace. -/
theorem syncPlan_eq_trace_of_mem {oldMeta newMeta : List MetaEntry} {changed : List String}
    {fs : Fs} {op : Op} (h : op ∈ Incremental.syncPlan oldMeta newMeta changed fs) :
    Incremental.syncPlan oldMeta newMeta changed fs =
      Incremental.syncTrace oldMeta newMeta changed fs := by
  unfold Incremental.syncPlan at h ⊢
  by_cases hc : (Incremental.removedEntries oldMeta newMeta).length = 0 ∧
      (Incremental.toUpsert oldMeta newMeta changed).length = 0 ∧
      (Incremental.questionsModified oldMeta newMeta).length = 0
  · rw [if_pos hc] at h
    cases h
  · rw [if_neg hc]

/-- The upsert loop never issues a scoped unlink. -/
theorem unlink_not_mem_upsertOps (fs : Fs) (e : MetaEntry) (qid eid : String) :
    Op.unlinkScoped qid eid ∉ Incremental.upsertOps fs e := by
  unfold Incremental.upsertOps
  cases fs.lookup e.file with
  | none => simp
  | some c =>
      intro h
      rcases List.mem_cons.mp h with h | h
      · exact Op.noConfusion h
      · obtain ⟨q, _, heq⟩ := List.mem_map.mp h
        exact Op.noConfusion heq

/-- C3: every unlink the incremental sync issues is scoped.  Any
`unlinkScoped qid eid` statement in the plan carries the derived id of a
removed or question-modified entry as its expected id, and applying it to
any store leaves untouched every question whose current link is some
explanation `x` different from `eid` — in particular a link repointed at
another explanation by a later run survives. -/
theorem c3_unlink_scoped (oldMeta newMeta : List MetaEntry) (changed : List String) (fs : Fs)
    (qid eid : String)
    (hmem : Op.unlinkScoped qid eid ∈ Incremental.syncPlan oldMeta newMeta changed fs)
    (s : Store) (q : Question) (hq : q ∈ s.questions) (x : String)
    (hx : q.explanationId = some x) (hne : x ≠ eid) :
    (∃ e, (e ∈ Incremental.removedEntries oldMeta newMeta ∨
        e ∈ Incremental.questionsModified oldMeta newMeta) ∧
      eid = Incremental.generateExplanationId e.file) ∧
    q ∈ (applyOp s (Op.unlinkScoped qid eid)).questions := by
  constructor
  · have h' : Op.unlinkScoped qid eid ∈ Incremental.syncTrace oldMeta newMeta changed fs :=
      syncPlan_eq_trace_of_mem hmem ▸ hmem
    unfold Incremental.syncTrace at h'
    rcases List.mem_append.mp h' with h' | h'
    · rcases List.mem_append.mp h' with h' | h'
      · obtain ⟨ops, hops, hin⟩ := List.mem_flatten.mp h'
        obtain ⟨en, hen, rfl⟩ := List.mem_map.mp hops
        unfold Incremental.removedOps at hin
        rcases List.mem_append.mp hin with hin | hin
        · obtain ⟨q2, _, heq⟩ := List.mem_map.mp hin
          injection heq with h1 h2
          exact ⟨en, Or.inl hen, h2.symm⟩
        · exact Op.noConfusion (List.mem_singleton.mp hin)
      · obtain ⟨ops, hops, hin⟩ := List.mem_flatten.mp h'
        obtain ⟨en, _, rfl⟩ := List.mem_map.mp hops
        exact absurd hin (unlink_not_mem_upsertOps fs en qid eid)
    · obtain ⟨ops, hops, hin⟩ := List.mem_flatten.mp h'
      obtain ⟨en, hen, rfl⟩ := List.mem_map.mp hops
      unfold Incremental.modUnlinkOps at hin
      obtain ⟨q2, _, heq⟩ := List.mem_map.mp hin
      injection heq with h1 h2
      exact ⟨en, Or.inr hen, h2.symm⟩
  · have hfix : (if q.externalId = qid ∧ q.explanationId = some eid then
        { q with explanationId := none } else q) = q := by
      rw [if_neg]
      rintro ⟨h1, h2⟩
      rw [hx] at h2
      exact hne (Option.some.inj h2)
    show q ∈ s.questions.map _
    exact hfix ▸ List.mem_map_of_mem _ hq

/-- C3, witness data: a removed entry `a.md` with question Q1, and a
store in which Q1 already points at a different explanation `X`. -/
theorem c3_unlink_scoped_witness :
    (Op.unlinkScoped "Q1" (Incremental.generateExplanationId "a.md") ∈
        Incremental.syncPlan [⟨"a.md", ["Q1"]⟩] [] [] [] ∧
      (⟨"q1", "Q1", some "X"⟩ : Question) ∈
        (⟨[], [⟨"q1", "Q1", some "X"⟩]⟩ : Store).questions ∧
      (⟨"q1", "Q1", some "X"⟩ : Question).explanationId = some "X" ∧
      "X" ≠ Incremental.generateExplanationId "a.md") ∧
    ((∃ e, (e ∈ Incremental.removedEntries [⟨"a.md", ["Q1"]⟩] [] ∨
        e ∈ Incremental.questionsModified [⟨"a.md", ["Q1"]⟩] []) ∧
      Incremental.generateExplanationId "a.md" = Incremental.generateExplanationId e.file) ∧
    (⟨"q1", "Q1", some "X"⟩ : Question) ∈
      (applyOp ⟨[], [⟨"q1", "Q1", some "X"⟩]⟩
        (Op.unlinkScoped "Q1" (Incremental.generateExplanationId "a.md"))).questions) :=
  ⟨⟨by decide, by decide, by decide, by decide⟩,
    c3_unlink_scoped [⟨"a.md", ["Q1"]⟩] [] [] [] "Q1" (Incremental.generateExplanationId "a.md")
      (by decide) ⟨[], [⟨"q1", "Q1", some "X"⟩]⟩ ⟨"q1", "Q1", some "X"⟩ (by decide) "X"
      (by decide) (by decide)⟩

/-- C7, amended: for every question-set-modified entry whose content file
is readable, the plan upserts the explanation row unconditionally (with
the freshly read content, whether or not the path is in the changed set),
links every question of the new set, and scoped-unlinks every question
present in the old entry but absent from the new one. -/
theorem c7_links_modified_plan (oldMeta newMeta : List MetaEntry) (changed : List String)
    (fs : Fs) (e : MetaEntry) (c : String)
    (he : e ∈ Incremental.questionsModified oldMeta newMeta)
    (hc : fs.lookup e.file = some c) :
    Op.upsertExp (Incremental.generateExplanationId e.file) c ∈
      Incremental.syncPlan oldMeta newMeta changed fs ∧
    (∀ qq ∈ e.questions,
      Op.link qq (Incremental.generateExplanationId e.file) ∈
        Incremental.syncPlan oldMeta newMeta changed fs) ∧
    (∀ oldE, Incremental.mapGet oldMeta e.file = some oldE →
      ∀ qq ∈ oldE.questions, qq ∉ e.questions →
        Op.unlinkScoped qq (Incremental.generateExplanationId e.file) ∈
          Incremental.syncPlan oldMeta newMeta changed fs) := by
  have hplan : Incremental.syncPlan oldMeta newMeta changed fs =
      Incremental.syncTrace oldMeta newMeta changed fs := by
    unfold Incremental.syncPlan
    exact if_neg (fun hcond =>
      List.ne_nil_of_mem he (List.length_eq_zero.mp hcond.2.2))
  have hsub : ∀ x, x ∈ Incremental.upsertOps fs e →
      x ∈ Incremental.syncPlan oldMeta newMeta changed fs := by
    intro x hx
    rw [hplan]
    unfold Incremental.syncTrace
    refine List.mem_append.mpr (Or.inl (List.mem_append.mpr (Or.inr ?_)))
    refine List.mem_flatten.mpr ⟨Incremental.upsertOps fs e, List.mem_map_of_mem _ ?_, hx⟩
    unfold Incremental.toUpsert
    exact List.mem_append.mpr (Or.inl (List.mem_append.mpr (Or.inr he)))
  refine ⟨?_, ?_, ?_⟩
  · apply hsub
    unfold Incremental.upsertOps
    rw [hc]
    exact List.mem_cons_self _ _
  · intro qq hqq
    apply hsub
    unfold Incremental.upsertOps
    rw [hc]
    exact List.mem_cons.mpr (Or.inr (List.mem_map_of_mem _ hqq))
  · intro oldE holdE qq hqq hnot
    rw [hplan]
    unfold Incremental.syncTrace
    refine List.mem_append.mpr (Or.inr ?_)
    refine List.mem_flatten.mpr ⟨Incremental.modUnlinkOps oldMeta e, List.mem_map_of_mem _ he, ?_⟩
    unfold Incremental.modUnlinkOps
    rw [holdE]
    refine List.mem_map_of_mem _ ?_
    refine List.mem_filter.mpr ⟨hqq, ?_⟩
    simpa using hnot

/-- C7, witness data: entry `c.md` whose question set changed from
`[Q1, Qx]` to `[Q1, Q2]`, with readable content `body`. -/
theorem c7_links_modified_plan_witness :
    ((⟨"c.md", ["Q1", "Q2"]⟩ : MetaEntry) ∈
        Incremental.questionsModified [⟨"c.md", ["Q1", "Qx"]⟩] [⟨"c.md", ["Q1", "Q2"]⟩] ∧
      ([("c.md", "body")] : Fs).lookup (⟨"c.md", ["Q1", "Q2"]⟩ : MetaEntry).file =
        some "body") ∧
    (Op.upsertExp (Incremental.generateExplanationId (⟨"c.md", ["Q1", "Q2"]⟩ : MetaEntry).file)
        "body" ∈
      Incremental.syncPlan [⟨"c.md", ["Q1", "Qx"]⟩] [⟨"c.md", ["Q1", "Q2"]⟩] [] [("c.md", "body")] ∧
    (∀ qq ∈ (⟨"c.md", ["Q1", "Q2"]⟩ : MetaEntry).questions,
      Op.link qq (Incremental.generateExplanationId (⟨"c.md", ["Q1", "Q2"]⟩ : MetaEntry).file) ∈
        Incremental.syncPlan [⟨"c.md", ["Q1", "Qx"]⟩] [⟨"c.md", ["Q1", "Q2"]⟩] []
          [("c.md", "body")]) ∧
    (∀ oldE, Incremental.mapGet [⟨"c.md", ["Q1", "Qx"]⟩]
          (⟨"c.md", ["Q1", "Q2"]⟩ : MetaEntry).file = some oldE →
      ∀ qq ∈ oldE.questions, qq ∉ (⟨"c.md", ["Q1", "Q2"]⟩ : MetaEntry).questions →
        Op.unlinkScoped qq
            (Incremental.generateExplanationId (⟨"c.md", ["Q1", "Q2"]⟩ : MetaEntry).file) ∈
          Incremental.syncPlan [⟨"c.md", ["Q1", "Qx"]⟩] [⟨"c.md", ["Q1", "Q2"]⟩] []
            [("c.md", "body")])) :=
  ⟨⟨by decide, by decide⟩,
    c7_links_modified_plan [⟨"c.md", ["Q1", "Qx"]⟩] [⟨"c.md", ["Q1", "Q2"]⟩] []
      [("c.md", "body")] ⟨"c.md", ["Q1", "Q2"]⟩ "body" (by decide) (by decide)⟩

/-- Appending on the left preserves a string suffix. -/
theorem endsWithB_append (pre name sfx : String) (h : Ordered.endsWithB name sfx = true) :
    Ordered.endsWithB (pre ++ name) sfx = true := by
  unfold Ordered.endsWithB at h ⊢
  rw [List.isSuffixOf_iff_suffix] at h ⊢
  rw [String.data_append]
  exact h.trans (List.suffix_append _ _)

/-- No string ends in both `.md` and `.svg`. -/
theorem endsWith_md_svg_disjoint (p : String) (h1 : Ordered.endsWithB p ".md" = true)
    (h2 : Ordered.endsWithB p ".svg" = true) : False := by
  unfold Ordered.endsWithB at h1 h2
  rw [List.isSuffixOf_iff_suffix] at h1 h2
  rcases List.suffix_or_suffix_of_suffix h1 h2 with h | h
  · exact absurd h (by decide)
  · exact absurd h (by decide)

/-- C10: the ordered full sync's directory walk loads only paths ending
in `.md` or `.svg`, and for every loaded `.svg` path the stored content
is the generated markdown image reference to the fixed GitHub raw URL
for that path — independent of the file's bytes. -/
theorem c10_dir_walk_md_svg (entries : List Ordered.FsEntry) (pre p c : String)
    (h : (p, c) ∈ Ordered.readExplanationsDir entries pre) :
    (Ordered.endsWithB p ".md" = true ∨ Ordered.endsWithB p ".svg" = true) ∧
    (Ordered.endsWithB p ".svg" = true →
      c = "![](" ++ Ordered.SVGS_BASE_URL ++ Ordered.encodeURIComponent p ++ ")") := by
  induction entries, pre using Ordered.readExplanationsDir.induct with
  | case1 pre =>
      rw [Ordered.readExplanationsDir] at h
      cases h
  | case2 name c0 rest pre ih =>
      rw [Ordered.readExplanationsDir] at h
      rcases List.mem_append.mp h with h | h
      · by_cases hmd : Ordered.endsWithB name ".md" = true
        · rw [if_pos hmd] at h
          obtain ⟨hp, hc⟩ := Prod.mk.injEq .. ▸ List.mem_singleton.mp h
          subst hp
          refine ⟨Or.inl (endsWithB_append pre name ".md" hmd), fun hsvg => ?_⟩
          exact absurd hsvg (fun hsvg =>
            endsWith_md_svg_disjoint _ (endsWithB_append pre name ".md" hmd) hsvg)
        · rw [if_neg hmd] at h
          by_cases hsvg : Ordered.endsWithB name ".svg" = true
          · rw [if_pos hsvg] at h
            obtain ⟨hp, hc⟩ := Prod.mk.injEq .. ▸ List.mem_singleton.mp h
            subst hp
            subst hc
            exact ⟨Or.inr (endsWithB_append pre name ".svg" hsvg), fun _ => rfl⟩
          · rw [if_neg hsvg] at h
            cases h
      · exact ih h
  | case3 name sub rest pre ih1 ih2 =>
      rw [Ordered.readExplanationsDir] at h
      rcases List.mem_append.mp h with h | h
      · exact ih1 h
      · exact ih2 h

/-- C10, witness data: a directory holding one markdown file and one SVG
file, walked from the root prefix. -/
theorem readExplanationsDir_witness_eval :
    Ordered.readExplanationsDir
      [Ordered.FsEntry.file "a.md" "hello",
       Ordered.FsEntry.dir "d" [Ordered.FsEntry.file "pic.svg" "<svg/>"]] "" =
      [("a.md", "hello"), ("d/pic.svg", Ordered.svgContent "d/pic.svg")] := by
  have h1 : Ordered.endsWithB "a.md" ".md" = true := by decide
  have h2 : Ordered.endsWithB "pic.svg" ".md" = false := by decide
  have h3 : Ordered.endsWithB "pic.svg" ".svg" = true := by decide
  simp only [Ordered.readExplanationsDir, h1, h2, h3]
  norm_num
  exact ⟨rfl, rfl⟩

theorem c10_dir_walk_md_svg_witness :
    (("d/pic.svg", Ordered.svgContent "d/pic.svg") ∈
      Ordered.readExplanationsDir
        [Ordered.FsEntry.file "a.md" "hello",
         Ordered.FsEntry.dir "d" [Ordered.FsEntry.file "pic.svg" "<svg/>"]] "") ∧
    ((Ordered.endsWithB "d/pic.svg" ".md" = true ∨
        Ordered.endsWithB "d/pic.svg" ".svg" = true) ∧
      (Ordered.endsWithB "d/pic.svg" ".svg" = true →
        Ordered.svgContent "d/pic.svg" =
          "![](" ++ Ordered.SVGS_BASE_URL ++ Ordered.encodeURIComponent "d/pic.svg" ++ ")")) :=
  ⟨readExplanationsDir_witness_eval ▸ (by simp),
    c10_dir_walk_md_svg
      [Ordered.FsEntry.file "a.md" "hello",
       Ordered.FsEntry.dir "d" [Ordered.FsEntry.file "pic.svg" "<svg/>"]] ""
      "d/pic.svg" (Ordered.svgContent "d/pic.svg")
      (readExplanationsDir_witness_eval ▸ (by simp))⟩


/-- Characterization of membership in the removed class. -/
theorem mem_removed_iff {oldMeta newMeta : List MetaEntry} {e : MetaEntry} :
    e ∈ Incremental.removedEntries oldMeta newMeta ↔
      e ∈ oldMeta ∧ ¬ ∃ x ∈ newMeta, x.file = e.file := by
  simp [Incremental.removedEntries, List.mem_filter]

/-- Characterization of membership in the added class. -/
theorem mem_added_iff {oldMeta newMeta : List MetaEntry} {e : MetaEntry} :
    e ∈ Incremental.addedEntries oldMeta newMeta ↔
      e ∈ newMeta ∧ ¬ ∃ x ∈ oldMeta, x.file = e.file := by
  simp [Incremental.addedEntries, List.mem_filter]

/-- Characterization of membership in the kept class. -/
theorem mem_kept_iff {oldMeta newMeta : List MetaEntry} {e : MetaEntry} :
    e ∈ Incremental.keptEntries oldMeta newMeta ↔
      e ∈ newMeta ∧ ∃ x ∈ oldMeta, x.file = e.file := by
  simp [Incremental.keptEntries, List.mem_filter]

/-- Characterization of membership in the question-modified class. -/
theorem mem_questionsModified_iff {oldMeta newMeta : List MetaEntry} {e : MetaEntry} :
    e ∈ Incremental.questionsModified oldMeta newMeta ↔
      e ∈ Incremental.keptEntries oldMeta newMeta ∧ Incremental.modCond oldMeta e = true :=
  List.mem_filter

/-- Characterization of membership in the content-only class. -/
theorem mem_contentOnly_iff {oldMeta newMeta : List MetaEntry} {changed : List String}
    {e : MetaEntry} :
    e ∈ Incremental.contentOnly oldMeta newMeta changed ↔
      e ∈ Incremental.keptEntries oldMeta newMeta ∧
        e.file ∉ Incremental.alreadyHandled oldMeta newMeta ∧ e.file ∈ changed := by
  simp [Incremental.contentOnly, List.mem_filter, List.elem_iff]

/-- Characterization of membership in the unchanged class. -/
theorem mem_unchanged_iff {oldMeta newMeta : List MetaEntry} {changed : List String}
    {e : MetaEntry} :
    e ∈ Incremental.unchangedEntries oldMeta newMeta changed ↔
      e ∈ Incremental.keptEntries oldMeta newMeta ∧
        ¬ Incremental.modCond oldMeta e = true ∧ e.file ∉ changed := by
  simp [Incremental.unchangedEntries, List.mem_filter, List.elem_iff]

/-- Every kept entry falls into exactly one of questionsModified,
contentOnly, unchanged; this lemma provides the coverage direction. -/
theorem kept_classified {oldMeta newMeta : List MetaEntry} {changed : List String}
    {e : MetaEntry} (hnew : (newMeta.map MetaEntry.file).Nodup)
    (he : e ∈ Incremental.keptEntries oldMeta newMeta) :
    e ∈ Incremental.questionsModified oldMeta newMeta ∨
      e ∈ Incremental.contentOnly oldMeta newMeta changed ∨
      e ∈ Incremental.unchangedEntries oldMeta newMeta changed := by
  by_cases hm : Incremental.modCond oldMeta e = true
  · exact Or.inl (mem_questionsModified_iff.mpr ⟨he, hm⟩)
  · by_cases hch : e.file ∈ changed
    · refine Or.inr (Or.inl (mem_contentOnly_iff.mpr ⟨he, ?_, hch⟩))
      intro hal
      unfold Incremental.alreadyHandled at hal
      rcases List.mem_append.mp hal with hal | hal
      · obtain ⟨a, ha, hfa⟩ := List.mem_map.mp hal
        obtain ⟨-, x, hx, hxf⟩ := mem_kept_iff.mp he
        obtain ⟨-, hno⟩ := mem_added_iff.mp ha
        exact hno ⟨x, hx, hfa ▸ hxf⟩
      · obtain ⟨a, ha, hfa⟩ := List.mem_map.mp hal
        have han : a ∈ newMeta := (mem_kept_iff.mp (mem_questionsModified_iff.mp ha).1).1
        have hen : e ∈ newMeta := (mem_kept_iff.mp he).1
        have : a = e := List.inj_on_of_nodup_map hnew han hen hfa
        exact hm (this ▸ (mem_questionsModified_iff.mp ha).2)
    · exact Or.inr (Or.inr (mem_unchanged_iff.mpr ⟨he, hm, hch⟩))

/-- C2: the five diff classes partition the union of the old and new
path sets: their path sets cover `old.paths ∪ new.paths` and are pairwise
disjoint (so an entry that is both newly added and content-changed is
classified only as added). -/
theorem c2_diff_partition (oldMeta newMeta : List MetaEntry) (changed : List String)
    (hnew : (newMeta.map MetaEntry.file).Nodup) :
    (∀ p : String,
      (p ∈ (Incremental.removedEntries oldMeta newMeta).map MetaEntry.file ∨
        p ∈ (Incremental.addedEntries oldMeta newMeta).map MetaEntry.file ∨
        p ∈ (Incremental.questionsModified oldMeta newMeta).map MetaEntry.file ∨
        p ∈ (Incremental.contentOnly oldMeta newMeta changed).map MetaEntry.file ∨
        p ∈ (Incremental.unchangedEntries oldMeta newMeta changed).map MetaEntry.file) ↔
      (p ∈ oldMeta.map MetaEntry.file ∨ p ∈ newMeta.map MetaEntry.file)) ∧
    List.Pairwise (fun A B => ∀ p, p ∈ A → p ∉ B)
      [(Incremental.removedEntries oldMeta newMeta).map MetaEntry.file,
       (Incremental.addedEntries oldMeta newMeta).map MetaEntry.file,
       (Incremental.questionsModified oldMeta newMeta).map MetaEntry.file,
       (Incremental.contentOnly oldMeta newMeta changed).map MetaEntry.file,
       (Incremental.unchangedEntries oldMeta newMeta changed).map MetaEntry.file] := by
  have hqm_kept : ∀ {e}, e ∈ Incremental.questionsModified oldMeta newMeta →
      e ∈ Incremental.keptEntries oldMeta newMeta := fun h => (mem_questionsModified_iff.mp h).1
  have hco_kept : ∀ {e}, e ∈ Incremental.contentOnly oldMeta newMeta changed →
      e ∈ Incremental.keptEntries oldMeta newMeta := fun h => (mem_contentOnly_iff.mp h).1
  have hun_kept : ∀ {e}, e ∈ Incremental.unchangedEntries oldMeta newMeta changed →
      e ∈ Incremental.keptEntries oldMeta newMeta := fun h => (mem_unchanged_iff.mp h).1
  have hrem : ∀ {p}, p ∈ (Incremental.removedEntries oldMeta newMeta).map MetaEntry.file →
      ∀ x ∈ newMeta, x.file ≠ p := by
    intro p hp x hx hxf
    obtain ⟨e, he, hef⟩ := List.mem_map.mp hp
    exact (mem_removed_iff.mp he).2 ⟨x, hx, hef ▸ hxf⟩
  have hadd : ∀ {p}, p ∈ (Incremental.addedEntries oldMeta newMeta).map MetaEntry.file →
      ∀ x ∈ oldMeta, x.file ≠ p := by
    intro p hp x hx hxf
    obtain ⟨e, he, hef⟩ := List.mem_map.mp hp
    exact (mem_added_iff.mp he).2 ⟨x, hx, hef ▸ hxf⟩
  have hkept_new : ∀ {p}, ∀ {l : List MetaEntry},
      (∀ {e : MetaEntry}, e ∈ l → e ∈ Incremental.keptEntries oldMeta newMeta) →
      p ∈ l.map MetaEntry.file → p ∈ newMeta.map MetaEntry.file := by
    intro p l hsub hp
    obtain ⟨e, he, hef⟩ := List.mem_map.mp hp
    exact List.mem_map.mpr ⟨e, (mem_kept_iff.mp (hsub he)).1, hef⟩
  have hkept_old : ∀ {p}, ∀ {l : List MetaEntry},
      (∀ {e : MetaEntry}, e ∈ l → e ∈ Incremental.keptEntries oldMeta newMeta) →
      p ∈ l.map MetaEntry.file → p ∈ oldMeta.map MetaEntry.file := by
    intro p l hsub hp
    obtain ⟨e, he, hef⟩ := List.mem_map.mp hp
    obtain ⟨-, x, hx, hxf⟩ := mem_kept_iff.mp (hsub he)
    exact List.mem_map.mpr ⟨x, hx, hef ▸ hxf⟩
  constructor
  · intro p
    constructor
    · rintro (hp | hp | hp | hp | hp)
      · obtain ⟨e, he, hef⟩ := List.mem_map.mp hp
        exact Or.inl (List.mem_map.mpr ⟨e, (mem_removed_iff.mp he).1, hef⟩)
      · obtain ⟨e, he, hef⟩ := List.mem_map.mp hp
        exact Or.inr (List.mem_map.mpr ⟨e, (mem_added_iff.mp he).1, hef⟩)
      · exact Or.inr (hkept_new hqm_kept hp)
      · exact Or.inr (hkept_new hco_kept hp)
      · exact Or.inr (hkept_new hun_kept hp)
    · have hnewside : ∀ {e : MetaEntry}, e ∈ newMeta → e.file = p →
          (p ∈ (Incremental.removedEntries oldMeta newMeta).map MetaEntry.file ∨
            p ∈ (Incremental.addedEntries oldMeta newMeta).map MetaEntry.file ∨
            p ∈ (Incremental.questionsModified oldMeta newMeta).map MetaEntry.file ∨
            p ∈ (Incremental.contentOnly oldMeta newMeta changed).map MetaEntry.file ∨
            p ∈ (Incremental.unchangedEntries oldMeta newMeta changed).map MetaEntry.file) := by
        intro e he hef
        by_cases hold : ∃ x ∈ oldMeta, x.file = e.file
        · have hk : e ∈ Incremental.keptEntries oldMeta newMeta := mem_kept_iff.mpr ⟨he, hold⟩
          rcases @kept_classified oldMeta newMeta changed e hnew hk with h | h | h
          · exact Or.inr (Or.inr (Or.inl (List.mem_map.mpr ⟨e, h, hef⟩)))
          · exact Or.inr (Or.inr (Or.inr (Or.inl (List.mem_map.mpr ⟨e, h, hef⟩))))
          · exact Or.inr (Or.inr (Or.inr (Or.inr (List.mem_map.mpr ⟨e, h, hef⟩))))
        · exact Or.inr (Or.inl (List.mem_map.mpr ⟨e, mem_added_iff.mpr ⟨he, hold⟩, hef⟩))
      rintro (hp | hp)
      · obtain ⟨e, he, hef⟩ := List.mem_map.mp hp
        by_cases hn : ∃ x ∈ newMeta, x.file = e.file
        · obtain ⟨x, hx, hxf⟩ := hn
          exact hnewside hx (hxf.trans hef)
        · exact Or.inl (List.mem_map.mpr ⟨e, mem_removed_iff.mpr ⟨he, hn⟩, hef⟩)
      · obtain ⟨e, he, hef⟩ := List.mem_map.mp hp
        exact hnewside he hef
  · refine List.pairwise_cons.mpr ⟨?_, List.pairwise_cons.mpr ⟨?_,
      List.pairwise_cons.mpr ⟨?_, List.pairwise_cons.mpr ⟨?_,
      List.pairwise_cons.mpr ⟨fun b hb => absurd hb (List.not_mem_nil b),
        List.Pairwise.nil⟩⟩⟩⟩⟩
    · intro B hB p hpR hpB
      simp only [List.mem_cons, List.not_mem_nil, or_false] at hB
      have hpnew : p ∈ newMeta.map MetaEntry.file := by
        rcases hB with rfl | rfl | rfl | rfl
        · obtain ⟨e, he, hef⟩ := List.mem_map.mp hpB
          exact List.mem_map.mpr ⟨e, (mem_added_iff.mp he).1, hef⟩
        · exact hkept_new hqm_kept hpB
        · exact hkept_new hco_kept hpB
        · exact hkept_new hun_kept hpB
      obtain ⟨x, hx, hxf⟩ := List.mem_map.mp hpnew
      exact hrem hpR x hx hxf
    · intro B hB p hpA hpB
      simp only [List.mem_cons, List.not_mem_nil, or_false] at hB
      have hpold : p ∈ oldMeta.map MetaEntry.file := by
        rcases hB with rfl | rfl | rfl
        · exact hkept_old hqm_kept hpB
        · exact hkept_old hco_kept hpB
        · exact hkept_old hun_kept hpB
      obtain ⟨x, hx, hxf⟩ := List.mem_map.mp hpold
      exact hadd hpA x hx hxf
    · intro B hB p hpQ hpB
      simp only [List.mem_cons, List.not_mem_nil, or_false] at hB
      obtain ⟨e, he, hef⟩ := List.mem_map.mp hpQ
      rcases hB with rfl | rfl
      · obtain ⟨e2, he2, hef2⟩ := List.mem_map.mp hpB
        refine (mem_contentOnly_iff.mp he2).2.1 ?_
        unfold Incremental.alreadyHandled
        refine List.mem_append.mpr (Or.inr (List.mem_map.mpr ⟨e, he, hef.trans hef2.symm⟩))
      · obtain ⟨e2, he2, hef2⟩ := List.mem_map.mp hpB
        have hen : e ∈ newMeta := (mem_kept_iff.mp (hqm_kept he)).1
        have he2n : e2 ∈ newMeta := (mem_kept_iff.mp (hun_kept he2)).1
        have : e = e2 := List.inj_on_of_nodup_map hnew hen he2n (hef.trans hef2.symm)
        exact (mem_unchanged_iff.mp he2).2.1 (this ▸ (mem_questionsModified_iff.mp he).2)
    · intro B hB p hpC hpB
      simp only [List.mem_cons, List.not_mem_nil, or_false] at hB
      subst hB
      obtain ⟨e, he, hef⟩ := List.mem_map.mp hpC
      obtain ⟨e2, he2, hef2⟩ := List.mem_map.mp hpB
      refine (mem_unchanged_iff.mp he2).2.2 ?_
      have := (mem_contentOnly_iff.mp he).2.2
      rwa [hef.trans hef2.symm] at this

/-- C2, witness data: a pair of manifests exercising all five classes. -/
theorem c2_diff_partition_witness :
    (([⟨"rem.md", ["Q1"]⟩, ⟨"qm.md", ["Q2"]⟩, ⟨"co.md", ["Q3"]⟩,
        ⟨"un.md", ["Q4"]⟩].map MetaEntry.file).Nodup ∧
    ((∀ p : String,
      (p ∈ (Incremental.removedEntries
          [⟨"rem.md", ["Q1"]⟩, ⟨"qm.md", ["Q2"]⟩, ⟨"co.md", ["Q3"]⟩, ⟨"un.md", ["Q4"]⟩]
          [⟨"qm.md", ["Q2", "Q5"]⟩, ⟨"co.md", ["Q3"]⟩, ⟨"un.md", ["Q4"]⟩,
           ⟨"add.md", ["Q6"]⟩]).map MetaEntry.file ∨
        p ∈ (Incremental.addedEntries
          [⟨"rem.md", ["Q1"]⟩, ⟨"qm.md", ["Q2"]⟩, ⟨"co.md", ["Q3"]⟩, ⟨"un.md", ["Q4"]⟩]
          [⟨"qm.md", ["Q2", "Q5"]⟩, ⟨"co.md", ["Q3"]⟩, ⟨"un.md", ["Q4"]⟩,
           ⟨"add.md", ["Q6"]⟩]).map MetaEntry.file ∨
        p ∈ (Incremental.questionsModified
          [⟨"rem.md", ["Q1"]⟩, ⟨"qm.md", ["Q2"]⟩, ⟨"co.md", ["Q3"]⟩, ⟨"un.md", ["Q4"]⟩]
          [⟨"qm.md", ["Q2", "Q5"]⟩, ⟨"co.md", ["Q3"]⟩, ⟨"un.md", ["Q4"]⟩,
           ⟨"add.md", ["Q6"]⟩]).map MetaEntry.file ∨
        p ∈ (Incremental.contentOnly
          [⟨"rem.md", ["Q1"]⟩, ⟨"qm.md", ["Q2"]⟩, ⟨"co.md", ["Q3"]⟩, ⟨"un.md", ["Q4"]⟩]
          [⟨"qm.md", ["Q2", "Q5"]⟩, ⟨"co.md", ["Q3"]⟩, ⟨"un.md", ["Q4"]⟩,
           ⟨"add.md", ["Q6"]⟩] ["co.md"]).map MetaEntry.file ∨
        p ∈ (Incremental.unchangedEntries
          [⟨"rem.md", ["Q1"]⟩, ⟨"qm.md", ["Q2"]⟩, ⟨"co.md", ["Q3"]⟩, ⟨"un.md", ["Q4"]⟩]
          [⟨"qm.md", ["Q2", "Q5"]⟩, ⟨"co.md", ["Q3"]⟩, ⟨"un.md", ["Q4"]⟩,
           ⟨"add.md", ["Q6"]⟩] ["co.md"]).map MetaEntry.file) ↔
      (p ∈ [⟨"rem.md", ["Q1"]⟩, ⟨"qm.md", ["Q2"]⟩, ⟨"co.md", ["Q3"]⟩,
          ⟨"un.md", ["Q4"]⟩].map MetaEntry.file ∨
        p ∈ [⟨"qm.md", ["Q2", "Q5"]⟩, ⟨"co.md", ["Q3"]⟩, ⟨"un.md", ["Q4"]⟩,
          ⟨"add.md", ["Q6"]⟩].map MetaEntry.file)) ∧
    List.Pairwise (fun A B => ∀ p, p ∈ A → p ∉ B)
      [(Incremental.removedEntries
          [⟨"rem.md", ["Q1"]⟩, ⟨"qm.md", ["Q2"]⟩, ⟨"co.md", ["Q3"]⟩, ⟨"un.md", ["Q4"]⟩]
          [⟨"qm.md", ["Q2", "Q5"]⟩, ⟨"co.md", ["Q3"]⟩, ⟨"un.md", ["Q4"]⟩,
           ⟨"add.md", ["Q6"]⟩]).map MetaEntry.file,
       (Incremental.addedEntries
          [⟨"rem.md", ["Q1"]⟩, ⟨"qm.md", ["Q2"]⟩, ⟨"co.md", ["Q3"]⟩, ⟨"un.md", ["Q4"]⟩]
          [⟨"qm.md", ["Q2", "Q5"]⟩, ⟨"co.md", ["Q3"]⟩, ⟨"un.md", ["Q4"]⟩,
           ⟨"add.md", ["Q6"]⟩]).map MetaEntry.file,
       (Incremental.questionsModified
          [⟨"rem.md", ["Q1"]⟩, ⟨"qm.md", ["Q2"]⟩, ⟨"co.md", ["Q3"]⟩, ⟨"un.md", ["Q4"]⟩]
          [⟨"qm.md", ["Q2", "Q5"]⟩, ⟨"co.md", ["Q3"]⟩, ⟨"un.md", ["Q4"]⟩,
           ⟨"add.md", ["Q6"]⟩]).map MetaEntry.file,
       (Incremental.contentOnly
          [⟨"rem.md", ["Q1"]⟩, ⟨"qm.md", ["Q2"]⟩, ⟨"co.md", ["Q3"]⟩, ⟨"un.md", ["Q4"]⟩]
          [⟨"qm.md", ["Q2", "Q5"]⟩, ⟨"co.md", ["Q3"]⟩, ⟨"un.md", ["Q4"]⟩,
           ⟨"add.md", ["Q6"]⟩] ["co.md"]).map MetaEntry.file,
       (Incremental.unchangedEntries
          [⟨"rem.md", ["Q1"]⟩, ⟨"qm.md", ["Q2"]⟩, ⟨"co.md", ["Q3"]⟩, ⟨"un.md", ["Q4"]⟩]
          [⟨"qm.md", ["Q2", "Q5"]⟩, ⟨"co.md", ["Q3"]⟩, ⟨"un.md", ["Q4"]⟩,
           ⟨"add.md", ["Q6"]⟩] ["co.md"]).map MetaEntry.file])) :=
  ⟨by decide,
    c2_diff_partition
      [⟨"rem.md", ["Q1"]⟩, ⟨"qm.md", ["Q2"]⟩, ⟨"co.md", ["Q3"]⟩, ⟨"un.md", ["Q4"]⟩]
      [⟨"qm.md", ["Q2", "Q5"]⟩, ⟨"co.md", ["Q3"]⟩, ⟨"un.md", ["Q4"]⟩, ⟨"add.md", ["Q6"]⟩]
      ["co.md"] (by decide)⟩


/-- One statement changes the question table pointwise by `qStep`. -/
theorem applyOp_questions (s : Store) (op : Op) :
    (applyOp s op).questions = s.questions.map (fun q => qStep q op) := by
  cases op with
  | unlinkScoped qid eid => rfl
  | link qid eid => rfl
  | deleteExp eid => simp [applyOp, qStep]
  | upsertExp eid c => simp [applyOp, qStep]

/-- One statement changes the explanation table by `eStep`. -/
theorem applyOp_explanations (s : Store) (op : Op) :
    (applyOp s op).explanations = eStep s.explanations op := by
  cases op <;> rfl

/-- A statement sequence changes the question table pointwise by the fold
of `qStep`. -/
theorem applyOps_questions (L : List Op) (s : Store) :
    (applyOps s L).questions = s.questions.map (fun q => L.foldl qStep q) := by
  induction L generalizing s with
  | nil => simp [applyOps]
  | cons op L ih =>
      have h1 : applyOps s (op :: L) = applyOps (applyOp s op) L := rfl
      rw [h1, ih, applyOp_questions, List.map_map]
      rfl

/-- A statement sequence changes the explanation table by the fold of
`eStep`. -/
theorem applyOps_explanations (L : List Op) (s : Store) :
    (applyOps s L).explanations = L.foldl eStep s.explanations := by
  induction L generalizing s with
  | nil => rfl
  | cons op L ih =>
      have h1 : applyOps s (op :: L) = applyOps (applyOp s op) L := rfl
      rw [h1, ih, applyOp_explanations]
      rfl

/-- `qStep` never changes a question's internal or external id. -/
theorem qStep_id_ext (q : Question) (op : Op) :
    (qStep q op).id = q.id ∧ (qStep q op).externalId = q.externalId := by
  cases op with
  | unlinkScoped qid eid =>
      show ((if q.externalId = qid ∧ q.explanationId = some eid then
          { q with explanationId := none } else q).id = q.id) ∧
        ((if q.externalId = qid ∧ q.explanationId = some eid then
          { q with explanationId := none } else q).externalId = q.externalId)
      by_cases h : q.externalId = qid ∧ q.explanationId = some eid
      · rw [if_pos h]
        exact ⟨rfl, rfl⟩
      · rw [if_neg h]
        exact ⟨rfl, rfl⟩
  | link qid eid =>
      show ((if q.externalId = qid then
          { q with explanationId := some eid } else q).id = q.id) ∧
        ((if q.externalId = qid then
          { q with explanationId := some eid } else q).externalId = q.externalId)
      by_cases h : q.externalId = qid
      · rw [if_pos h]
        exact ⟨rfl, rfl⟩
      · rw [if_neg h]
        exact ⟨rfl, rfl⟩
  | deleteExp eid => exact ⟨rfl, rfl⟩
  | upsertExp eid c => exact ⟨rfl, rfl⟩

/-- Folding `qStep` never changes a question's internal or external id. -/
theorem qFold_id_ext (L : List Op) (q : Question) :
    (L.foldl qStep q).id = q.id ∧ (L.foldl qStep q).externalId = q.externalId := by
  induction L generalizing q with
  | nil => exact ⟨rfl, rfl⟩
  | cons op L ih =>
      have h := qStep_id_ext q op
      have h2 := ih (qStep q op)
      exact ⟨h2.1.trans h.1, h2.2.trans h.2⟩

/-- A sequence of statements containing no scoped unlink acts
idempotently on each question. -/
theorem qFold_idem (L : List Op) (hL : ∀ op ∈ L, ∀ a b, op ≠ Op.unlinkScoped a b)
    (q : Question) : L.foldl qStep (L.foldl qStep q) = L.foldl qStep q := by
  induction L using List.reverseRecOn generalizing q with
  | nil => rfl
  | append_singleton L op ih =>
      have hLsub : ∀ o ∈ L, ∀ a b, o ≠ Op.unlinkScoped a b := fun o ho =>
        hL o (List.mem_append.mpr (Or.inl ho))
      have hop : ∀ a b, op ≠ Op.unlinkScoped a b :=
        hL op (List.mem_append.mpr (Or.inr (List.mem_singleton.mpr rfl)))
      have happ : ∀ r, (L ++ [op]).foldl qStep r = qStep (L.foldl qStep r) op := by
        intro r
        rw [List.foldl_append]
        rfl
      rw [happ, happ]
      cases op with
      | unlinkScoped a b => exact absurd rfl (hop a b)
      | deleteExp eid =>
          simp only [show ∀ r, qStep r (Op.deleteExp eid) = r from fun r => rfl, ih hLsub]
      | upsertExp eid c =>
          simp only [show ∀ r, qStep r (Op.upsertExp eid c) = r from fun r => rfl, ih hLsub]
      | link qid eid =>
          have hred : ∀ r : Question, qStep r (Op.link qid eid) =
              if r.externalId = qid then { r with explanationId := some eid } else r :=
            fun r => rfl
          have hcond : (L.foldl qStep q).externalId = qid ↔ q.externalId = qid := by
            rw [(qFold_id_ext L q).2]
          by_cases hq : q.externalId = qid
          · simp only [hred]
            rw [if_pos (hcond.mpr hq)]
            rw [if_pos ((qFold_id_ext L { L.foldl qStep q with explanationId := some eid }).2.trans
              (hcond.mpr hq))]
            refine Question.ext ?_ ?_ ?_
            · exact (qFold_id_ext L { L.foldl qStep q with explanationId := some eid }).1
            · exact (qFold_id_ext L { L.foldl qStep q with explanationId := some eid }).2
            · rfl
          · simp only [hred]
            rw [if_neg (fun h => hq (hcond.mp h))]
            rw [ih hLsub]
            rw [if_neg (fun h => hq (hcond.mp h))]

/-- Pointwise-equal predicates give equal `any`. -/
theorem anyCongr {α : Type} (l : List α) (p q : α → Bool) (h : ∀ a ∈ l, p a = q a) :
    l.any p = l.any q := by
  induction l with
  | nil => rfl
  | cons a t ih =>
      simp only [List.any_cons]
      rw [h a (List.mem_cons_self a t), ih (fun b hb => h b (List.mem_cons_of_mem a hb))]

/-- The replacement map of an upsert keeps every entry's key. -/
theorem upsertFn_key (k c : String) (p : String × String) :
    ((if p.1 = k then (k, c) else p) : String × String).1 = p.1 := by
  by_cases hp : p.1 = k
  · rw [if_pos hp, hp]
  · rw [if_neg hp]

/-- An upsert preserves the presence of every key. -/
theorem any_key_upsertRow_mono {es : List (String × String)} {j : String} (k c : String)
    (h : es.any (fun p => p.1 = j) = true) :
    (upsertRow es k c).any (fun p => p.1 = j) = true := by
  unfold upsertRow
  split
  · rw [List.any_map, anyCongr es _ (fun p => decide (p.1 = j)) (fun p _ => by
      simp only [Function.comp_apply]
      rw [upsertFn_key k c p])]
    exact h
  · rw [List.any_append, h, Bool.true_or]

/-- An upsert establishes the presence of its own key. -/
theorem any_key_upsertRow_self (es : List (String × String)) (k c : String) :
    (upsertRow es k c).any (fun p => p.1 = k) = true := by
  unfold upsertRow
  split
  · next h =>
      rw [List.any_map, anyCongr es _ (fun p => decide (p.1 = k)) (fun p _ => by
        simp only [Function.comp_apply]
        rw [upsertFn_key k c p])]
      exact h
  · simp [List.any_append]

/-- A sequence of upserts preserves the presence of every key. -/
theorem any_key_applyU_mono (P : List (String × String)) (es : List (String × String))
    (j : String) (h : es.any (fun p => p.1 = j) = true) :
    (applyU P es).any (fun p => p.1 = j) = true := by
  induction P generalizing es with
  | nil => exact h
  | cons a P ih => exact ih _ (any_key_upsertRow_mono a.1 a.2 h)

/-- After a sequence of upserts every written key is present. -/
theorem any_key_applyU (P : List (String × String)) (es : List (String × String))
    (j : String) (h : j ∈ P.map Prod.fst) :
    (applyU P es).any (fun p => p.1 = j) = true := by
  induction P generalizing es with
  | nil => cases h
  | cons a P ih =>
      rw [List.map_cons] at h
      rcases List.mem_cons.mp h with h | h
      · subst h
        exact any_key_applyU_mono P _ _ (any_key_upsertRow_self es _ a.2)
      · exact ih _ h

/-- Folding the last-value accumulator from any start. -/
theorem lastVal_acc (P : List (String × String)) (k : String) (acc : Option String) :
    P.foldl (fun acc p => if p.1 = k then some p.2 else acc) acc =
      match lastVal P k with
      | some v => some v
      | none => acc := by
  induction P generalizing acc with
  | nil => rfl
  | cons b Q ih =>
      show Q.foldl _ (if b.1 = k then some b.2 else acc) = _
      rw [ih]
      have h2 : lastVal (b :: Q) k =
          Q.foldl (fun acc p => if p.1 = k then some p.2 else acc)
            (if b.1 = k then some b.2 else none) := rfl
      rw [h2, ih]
      cases hq : lastVal Q k with
      | some v => rfl
      | none =>
          by_cases hb : b.1 = k
          · simp [hb]
          · simp [hb]

/-- Last value written by a one-longer sequence. -/
theorem lastVal_concat (P : List (String × String)) (a : String × String) (k : String) :
    lastVal (P ++ [a]) k = if a.1 = k then some a.2 else lastVal P k := by
  show (P ++ [a]).foldl _ none = _
  rw [List.foldl_append]
  rfl

/-- A key never written has no last value. -/
theorem lastVal_none (P : List (String × String)) (k : String) (h : k ∉ P.map Prod.fst) :
    lastVal P k = none := by
  induction P with
  | nil => rfl
  | cons b Q ih =>
      rw [List.map_cons] at h
      have hb : ¬ b.1 = k := fun hb => h (List.mem_cons.mpr (Or.inl hb.symm))
      have hQ : k ∉ Q.map Prod.fst := fun hq => h (List.mem_cons.mpr (Or.inr hq))
      have h1 : lastVal (b :: Q) k =
          Q.foldl (fun acc p => if p.1 = k then some p.2 else acc)
            (if b.1 = k then some b.2 else none) := rfl
      rw [h1, lastVal_acc, ih hQ, if_neg hb]

/-- The last value over an append whose right part never writes the key. -/
theorem lastVal_append_right_none (X P : List (String × String)) (k : String)
    (h : k ∉ P.map Prod.fst) : lastVal (X ++ P) k = lastVal X k := by
  show (X ++ P).foldl _ none = _
  rw [List.foldl_append]
  show P.foldl _ (lastVal X k) = _
  rw [lastVal_acc, lastVal_none P k h]

/-- Appending one upsert to a sequence. -/
theorem applyU_concat (P : List (String × String)) (a : String × String)
    (es : List (String × String)) :
    applyU (P ++ [a]) es = upsertRow (applyU P es) a.1 a.2 := by
  show (P ++ [a]).foldl _ es = _
  rw [List.foldl_append]
  rfl

/-- Every entry left at a key after a sequence of upserts carries the
last value written at that key, unless the key was never written and the
entry was already present. -/
theorem val_applyU (P : List (String × String)) (es : List (String × String))
    (k c' : String) (h : (k, c') ∈ applyU P es) :
    lastVal P k = some c' ∨ (lastVal P k = none ∧ (k, c') ∈ es) := by
  induction P using List.reverseRecOn with
  | nil => exact Or.inr ⟨rfl, h⟩
  | append_singleton P a ih =>
      rw [applyU_concat] at h
      rw [lastVal_concat]
      unfold upsertRow at h
      split at h
      · next hany =>
          obtain ⟨p, hp, hfp⟩ := List.mem_map.mp h
          by_cases hpk : p.1 = a.1
          · rw [if_pos hpk] at hfp
            have h1 : a.1 = k := congrArg Prod.fst hfp
            have h2 : a.2 = c' := congrArg Prod.snd hfp
            rw [if_pos h1]
            exact Or.inl (congrArg some h2)
          · rw [if_neg hpk] at hfp
            subst hfp
            rw [if_neg (fun ha => hpk ha.symm)]
            exact ih hp
      · next hany =>
          rcases List.mem_append.mp h with h | h
          · have hk : ¬ a.1 = k := by
              intro ha
              exact hany (List.any_eq_true.mpr ⟨(k, c'), h, by simp [ha.symm]⟩)
            rw [if_neg hk]
            exact ih h
          · have hsing := List.mem_singleton.mp h
            have h1 : a.1 = k := (congrArg Prod.fst hsing).symm
            have h2 : a.2 = c' := (congrArg Prod.snd hsing).symm
            rw [if_pos h1]
            exact Or.inl (congrArg some h2)

/-- Related tables have the same key sequence. -/
theorem forall2_keys {k : String} {es₁ es₂ : List (String × String)}
    (h : List.Forall₂ (fun p q => p.1 = q.1 ∧ (p.1 ≠ k → p = q)) es₁ es₂) :
    es₁.map Prod.fst = es₂.map Prod.fst := by
  induction h with
  | nil => rfl
  | cons hr _ ih => simp only [List.map_cons, hr.1, ih]

/-- Any over a mapped list, for maps that change the element type. -/
theorem anyMap {α β : Type} (l : List α) (f : α → β) (p : β → Bool) :
    (l.map f).any p = l.any (fun a => p (f a)) := by
  induction l with
  | nil => rfl
  | cons a t ih => simp only [List.map_cons, List.any_cons, ih]

/-- Tables with equal key sequences have the same key presence. -/
theorem any_key_of_keys_eq {es₁ es₂ : List (String × String)}
    (h : es₁.map Prod.fst = es₂.map Prod.fst) (j : String) :
    es₁.any (fun p => p.1 = j) = es₂.any (fun p => p.1 = j) := by
  have h1 : es₁.any (fun p => p.1 = j) = (es₁.map Prod.fst).any (fun x => x = j) :=
    (anyMap es₁ Prod.fst (fun x => x = j)).symm
  have h2 : es₂.any (fun p => p.1 = j) = (es₂.map Prod.fst).any (fun x => x = j) :=
    (anyMap es₂ Prod.fst (fun x => x = j)).symm
  rw [h1, h2, h]

/-- Replacing the value at key `k` maps agree-except-at-`k` tables to
equal tables. -/
theorem map_upsertFn_eq_of_rel (k c : String) {es₁ es₂ : List (String × String)}
    (hrel : List.Forall₂ (fun p q => p.1 = q.1 ∧ (p.1 ≠ k → p = q)) es₁ es₂) :
    es₁.map (fun p => if p.1 = k then (k, c) else p) =
      es₂.map (fun p => if p.1 = k then (k, c) else p) := by
  induction hrel with
  | nil => rfl
  | @cons p q t₁ t₂ hr hrest ih =>
      simp only [List.map_cons, ih]
      congr 1
      by_cases hp : p.1 = k
      · rw [if_pos hp, if_pos (hr.1.symm.trans hp)]
      · rw [if_neg hp, if_neg (fun hq => hp (hr.1.trans hq)), hr.2 hp]

/-- Agree-except-at-`k` tables with no entry at `k` are equal. -/
theorem eq_of_rel_no_key {k : String} {es₁ es₂ : List (String × String)}
    (hrel : List.Forall₂ (fun p q => p.1 = q.1 ∧ (p.1 ≠ k → p = q)) es₁ es₂)
    (h2 : ∀ p ∈ es₂, ¬ p.1 = k) : es₁ = es₂ := by
  induction hrel with
  | nil => rfl
  | @cons p q t₁ t₂ hr hrest ih =>
      have hq : ¬ q.1 = k := h2 q (List.mem_cons_self q t₂)
      rw [ih (fun r hr2 => h2 r (List.mem_cons_of_mem q hr2)),
        hr.2 (fun hp => hq (hr.1 ▸ hp))]

/-- The replacement map of an upsert preserves the agree-except-at-`k`
relation. -/
theorem forall2_map_upsertFn (k a1 a2 : String) {es₁ es₂ : List (String × String)}
    (hrel : List.Forall₂ (fun p q => p.1 = q.1 ∧ (p.1 ≠ k → p = q)) es₁ es₂) :
    List.Forall₂ (fun p q => p.1 = q.1 ∧ (p.1 ≠ k → p = q))
      (es₁.map (fun p => if p.1 = a1 then (a1, a2) else p))
      (es₂.map (fun p => if p.1 = a1 then (a1, a2) else p)) := by
  induction hrel with
  | nil => exact List.Forall₂.nil
  | @cons p q t₁ t₂ hr hrest ih =>
      refine List.Forall₂.cons ⟨?_, ?_⟩ ih
      · show ((if p.1 = a1 then (a1, a2) else p) : String × String).1 =
          ((if q.1 = a1 then (a1, a2) else q) : String × String).1
        rw [upsertFn_key a1 a2 p, upsertFn_key a1 a2 q]
        exact hr.1
      · intro hf
        show (if p.1 = a1 then (a1, a2) else p) = (if q.1 = a1 then (a1, a2) else q)
        have hf2 : p.1 ≠ k := fun h => hf ((upsertFn_key a1 a2 p).trans h)
        rw [hr.2 hf2]

/-- Appending the same element to related lists keeps them related. -/
theorem forall2_concat {α : Type} {R : α → α → Prop} {l₁ l₂ : List α} {x y : α}
    (h : List.Forall₂ R l₁ l₂) (hxy : R x y) : List.Forall₂ R (l₁ ++ [x]) (l₂ ++ [y]) := by
  induction h with
  | nil => exact List.Forall₂.cons hxy List.Forall₂.nil
  | cons hr _ ih => exact List.Forall₂.cons hr ih

/-- An upsert preserves the agree-except-at-one-key relation. -/
theorem rel_upsertRow (k a1 a2 : String) {es₁ es₂ : List (String × String)}
    (hrel : List.Forall₂ (fun p q => p.1 = q.1 ∧ (p.1 ≠ k → p = q)) es₁ es₂) :
    List.Forall₂ (fun p q => p.1 = q.1 ∧ (p.1 ≠ k → p = q))
      (upsertRow es₁ a1 a2) (upsertRow es₂ a1 a2) := by
  unfold upsertRow
  rw [any_key_of_keys_eq (forall2_keys hrel) a1]
  by_cases hpres : es₂.any (fun p => p.1 = a1) = true
  · rw [if_pos hpres, if_pos hpres]
    exact forall2_map_upsertFn k a1 a2 hrel
  · rw [if_neg hpres, if_neg hpres]
    exact forall2_concat hrel ⟨rfl, fun _ => rfl⟩

/-- The replacement map applied to a table is related to the table. -/
theorem forall2_upsertFn_self (k c : String) (l : List (String × String)) :
    List.Forall₂ (fun p q => p.1 = q.1 ∧ (p.1 ≠ k → p = q))
      (l.map (fun p => if p.1 = k then (k, c) else p)) l := by
  induction l with
  | nil => exact List.Forall₂.nil
  | cons a t ih =>
      refine List.Forall₂.cons ⟨upsertFn_key k c a, fun hf => ?_⟩ ih
      show (if a.1 = k then (k, c) else a) = a
      rw [if_neg (fun h => hf ((upsertFn_key k c a).trans h))]

/-- A sequence of upserts that writes key `k` merges two tables that
agree everywhere except at `k`. -/
theorem applyU_merge_at_key (P : List (String × String)) {es₁ es₂ : List (String × String)}
    (k : String)
    (hrel : List.Forall₂ (fun p q => p.1 = q.1 ∧ (p.1 ≠ k → p = q)) es₁ es₂)
    (hk : k ∈ P.map Prod.fst) :
    applyU P es₁ = applyU P es₂ := by
  induction P generalizing es₁ es₂ with
  | nil => cases hk
  | cons a P ih =>
      show applyU P (upsertRow es₁ a.1 a.2) = applyU P (upsertRow es₂ a.1 a.2)
      by_cases hak : a.1 = k
      · have hequ : upsertRow es₁ a.1 a.2 = upsertRow es₂ a.1 a.2 := by
          unfold upsertRow
          rw [any_key_of_keys_eq (forall2_keys hrel) a.1]
          by_cases hpres : es₂.any (fun p => p.1 = a.1) = true
          · rw [if_pos hpres, if_pos hpres]
            subst hak
            exact map_upsertFn_eq_of_rel a.1 a.2 hrel
          · rw [if_neg hpres, if_neg hpres,
              eq_of_rel_no_key hrel (fun p hp hpk =>
                hpres (List.any_eq_true.mpr ⟨p, hp, by simp [hpk, hak]⟩))]
        rw [hequ]
      · have hk2 : k ∈ P.map Prod.fst := by
          rw [List.map_cons] at hk
          rcases List.mem_cons.mp hk with h | h
          · exact absurd h.symm hak
          · exact h
        exact ih (rel_upsertRow k a.1 a.2 hrel) hk2

/-- Replaying a sequence of upserts on its own result changes nothing. -/
theorem applyU_idem_aux (P Q : List (String × String)) (es : List (String × String)) :
    applyU P (applyU (Q ++ P) es) = applyU (Q ++ P) es := by
  induction P generalizing Q with
  | nil => rfl
  | cons a P ih =>
      show applyU P (upsertRow (applyU (Q ++ a :: P) es) a.1 a.2) = applyU (Q ++ a :: P) es
      have hpres : (applyU (Q ++ a :: P) es).any (fun p => p.1 = a.1) = true :=
        any_key_applyU _ _ _ (by simp)
      have hrepl : upsertRow (applyU (Q ++ a :: P) es) a.1 a.2 =
          (applyU (Q ++ a :: P) es).map (fun p => if p.1 = a.1 then (a.1, a.2) else p) := by
        unfold upsertRow
        rw [if_pos hpres]
      have hih : applyU P (applyU (Q ++ a :: P) es) = applyU (Q ++ a :: P) es := by
        have h0 := ih (Q ++ [a])
        rw [List.append_assoc] at h0
        exact h0
      by_cases hk : a.1 ∈ P.map Prod.fst
      · rw [hrepl, applyU_merge_at_key P a.1 (forall2_upsertFn_self a.1 a.2 _) hk, hih]
      · have hfix : ∀ p ∈ applyU (Q ++ a :: P) es,
            (if p.1 = a.1 then (a.1, a.2) else p) = p := by
          intro p hp
          by_cases hpk : p.1 = a.1
          · rw [if_pos hpk]
            have hval := val_applyU (Q ++ a :: P) es p.1 p.2 hp
            have hlv : lastVal (Q ++ a :: P) p.1 = some a.2 := by
              rw [hpk]
              have h1 : Q ++ a :: P = (Q ++ [a]) ++ P := by simp
              rw [h1, lastVal_append_right_none _ _ _ hk, lastVal_concat, if_pos rfl]
            rcases hval with hval | hval
            · rw [hlv] at hval
              exact Prod.ext_iff.mpr ⟨hpk.symm, Option.some.inj hval⟩
            · rw [hlv] at hval
              exact absurd hval.1 (by simp)
          · rw [if_neg hpk]
        rw [hrepl, List.map_congr_left hfix, List.map_id', hih]

/-- A delete-free statement sequence acts on the explanation table as the
sequence of its upsert payloads. -/
theorem foldl_eStep_applyU (L : List Op) (es : List (String × String))
    (h : ∀ op ∈ L, ∀ eid, op ≠ Op.deleteExp eid) :
    L.foldl eStep es = applyU (ePairs L) es := by
  induction L generalizing es with
  | nil => rfl
  | cons op L ih =>
      have hL : ∀ o ∈ L, ∀ eid, o ≠ Op.deleteExp eid := fun o ho =>
        h o (List.mem_cons_of_mem _ ho)
      cases op with
      | deleteExp eid => exact absurd rfl (h _ (List.mem_cons_self _ _) eid)
      | upsertExp eid c =>
          have hp : ePairs (Op.upsertExp eid c :: L) = (eid, c) :: ePairs L := by
            simp [ePairs, List.filterMap_cons]
          rw [hp]
          exact ih _ hL
      | unlinkScoped a b =>
          have hp : ePairs (Op.unlinkScoped a b :: L) = ePairs L := by
            simp [ePairs, List.filterMap_cons]
          rw [hp]
          exact ih _ hL
      | link a b =>
          have hp : ePairs (Op.link a b :: L) = ePairs L := by
            simp [ePairs, List.filterMap_cons]
          rw [hp]
          exact ih _ hL

/-- Every statement of the single-link full sync is an upsert or a link. -/
theorem fullTrace_shape (meta : List MetaEntry) (files : Fs) :
    ∀ op ∈ FullSync.fullTrace meta files,
      (∃ e c, op = Op.upsertExp e c) ∨ ∃ q e, op = Op.link q e := by
  intro op hop
  obtain ⟨ops, hops, hin⟩ := List.mem_flatten.mp hop
  obtain ⟨en, _, rfl⟩ := List.mem_map.mp hops
  revert hin
  unfold FullSync.entryOps
  cases files.lookup en.file with
  | none =>
      intro hin
      cases hin
  | some c =>
      intro hin
      rcases List.mem_cons.mp hin with h | h
      · exact Or.inl ⟨_, _, h⟩
      · obtain ⟨q, _, rfl⟩ := List.mem_map.mp h
        exact Or.inr ⟨q, _, rfl⟩

/-- The single-link full resync is idempotent on the store. -/
theorem runFull_idem (meta : List MetaEntry) (files : Fs) (s : Store) :
    FullSync.runFull meta files (FullSync.runFull meta files s) =
      FullSync.runFull meta files s := by
  have hnd : ∀ op ∈ FullSync.fullTrace meta files, ∀ eid, op ≠ Op.deleteExp eid := by
    intro op hop eid heq
    subst heq
    rcases fullTrace_shape meta files _ hop with ⟨e, c, h⟩ | ⟨q, e, h⟩ <;> exact Op.noConfusion h
  have hnu : ∀ op ∈ FullSync.fullTrace meta files, ∀ a b, op ≠ Op.unlinkScoped a b := by
    intro op hop a b heq
    subst heq
    rcases fullTrace_shape meta files _ hop with ⟨e, c, h⟩ | ⟨q, e, h⟩ <;> exact Op.noConfusion h
  apply Store.ext
  · show (applyOps (applyOps s _) _).explanations = (applyOps s _).explanations
    rw [applyOps_explanations, applyOps_explanations,
      foldl_eStep_applyU _ _ hnd, foldl_eStep_applyU _ _ hnd]
    exact applyU_idem_aux (ePairs (FullSync.fullTrace meta files)) [] s.explanations
  · show (applyOps (applyOps s _) _).questions = (applyOps s _).questions
    rw [applyOps_questions, applyOps_questions, List.map_map]
    exact List.map_congr_left (fun q _ => qFold_idem _ hnu q)

/-- Every row inserted for one question carries that question's id. -/
theorem insertRows_qid (qid : String) (f : Fs) (files : List String) :
    ∀ ord c, ∀ r ∈ (Ordered.insertRows qid f files ord c).1, r.questionId = qid := by
  induction files with
  | nil =>
      intro ord c r hr
      cases hr
  | cons fl rest ih =>
      intro ord c r hr
      cases hl : f.lookup fl with
      | none =>
          rw [Ordered.insertRows, hl] at hr
          exact ih _ _ r hr
      | some c0 =>
          rw [Ordered.insertRows, hl] at hr
          rcases List.mem_cons.mp hr with h | h
          · rw [h]
          · exact ih _ _ r h

/-- The projection of the inserted rows does not depend on the fresh-id
counter. -/
theorem insertRows_proj (qid : String) (f : Fs) (files : List String) :
    ∀ ord c₁ c₂, ((Ordered.insertRows qid f files ord c₁).1).map Ordered.projRow =
      ((Ordered.insertRows qid f files ord c₂).1).map Ordered.projRow := by
  induction files with
  | nil => intro ord c₁ c₂; rfl
  | cons fl rest ih =>
      intro ord c₁ c₂
      cases hl : f.lookup fl with
      | none =>
          rw [Ordered.insertRows, Ordered.insertRows, hl]
          exact ih _ _ _
      | some c0 =>
          rw [Ordered.insertRows, Ordered.insertRows, hl]
          simp only [List.map_cons]
          rw [ih (ord + 1) (c₁ + 1) (c₂ + 1)]
          rfl

/-- When every declared file is loadable, the inserted rows are exactly
the declared sequence with consecutive order values. -/
theorem insertRows_all_present (qid : String) (f : Fs) (files : List String)
    (hall : ∀ g ∈ files, (f.lookup g).isSome = true) :
    ∀ ord c, ((Ordered.insertRows qid f files ord c).1).map Ordered.projRow =
      (files.enumFrom ord).map
        (fun p => (qid, Ordered.generateExplanationId p.2, p.1)) := by
  induction files with
  | nil => intro ord c; rfl
  | cons fl rest ih =>
      intro ord c
      cases hl : f.lookup fl with
      | none =>
          exact absurd (hall fl (List.mem_cons_self fl rest)) (by simp [hl])
      | some c0 =>
          rw [Ordered.insertRows, hl, List.enumFrom_cons]
          simp only [List.map_cons]
          rw [ih (fun g hg => hall g (List.mem_cons_of_mem fl hg)) (ord + 1) (c + 1)]
          rfl

/-- The internal id resolved for a question key outside the remaining
manifest never occurs among the remaining processed ids. -/
theorem find_id_not_in_processedIds (m : List (String × List String))
    (qs : List (String × String)) (q1 : String) (qrow : String × String)
    (hfind : qs.find? (fun p => p.2 = q1) = some qrow)
    (hids : (qs.map Prod.fst).Nodup) (hnk : q1 ∉ m.map Prod.fst) :
    qrow.1 ∉ Ordered.processedIds m qs := by
  intro hmem
  obtain ⟨k, hk, hke⟩ := List.mem_filterMap.mp hmem
  by_cases hk0 : k.2.length = 0
  · rw [if_pos hk0] at hke
    cases hke
  · rw [if_neg hk0] at hke
    obtain ⟨row2, hrow2, hrow2id⟩ := Option.map_eq_some'.mp hke
    have h1 : qrow ∈ qs := List.mem_of_find?_eq_some hfind
    have h2 : row2 ∈ qs := List.mem_of_find?_eq_some hrow2
    have h3 : qrow.2 = q1 := by simpa using List.find?_some hfind
    have h4 : row2.2 = k.1 := by simpa using List.find?_some hrow2
    have h5 : row2 = qrow := List.inj_on_of_nodup_map hids h2 h1 hrow2id
    exact hnk (List.mem_map.mpr ⟨k, hk, by rw [← h4, h5, h3]⟩)

/-- Phase 2 of the ordered sync leaves questions and explanations alone,
replaces exactly the processed questions' join rows by the planned rows,
and advances the counter as the planned rows do. -/
theorem foldl_processQuestion_spec (f : Fs) (m : List (String × List String)) :
    ∀ (s : Ordered.OStore) (c : Nat),
      (m.map Prod.fst).Nodup → (s.questions.map Prod.fst).Nodup →
      (m.foldl (Ordered.processQuestion f) (s, c)).1.questions = s.questions ∧
      (m.foldl (Ordered.processQuestion f) (s, c)).1.explanations = s.explanations ∧
      (m.foldl (Ordered.processQuestion f) (s, c)).1.links =
        s.links.filter
          (fun r => ¬ (Ordered.processedIds m s.questions).contains r.questionId) ++
          (Ordered.plannedRows f s.questions m c).1 ∧
      (m.foldl (Ordered.processQuestion f) (s, c)).2 =
        (Ordered.plannedRows f s.questions m c).2 := by
  induction m with
  | nil =>
      intro s c _ _
      refine ⟨rfl, rfl, ?_, rfl⟩
      show s.links = s.links.filter _ ++ []
      rw [List.append_nil]
      symm
      apply List.filter_eq_self.mpr
      intro r _
      simp [Ordered.processedIds]
  | cons q m ih =>
      intro s c hkeys hids
      have hkeys' : (m.map Prod.fst).Nodup := by
        rw [List.map_cons, List.nodup_cons] at hkeys
        exact hkeys.2
      have hknotin : q.1 ∉ m.map Prod.fst := by
        rw [List.map_cons, List.nodup_cons] at hkeys
        exact hkeys.1
      rw [List.foldl_cons]
      by_cases hq : q.2.length = 0
      · have hstep : Ordered.processQuestion f (s, c) q = (s, c) := by
          simp [Ordered.processQuestion, hq]
        have hpids : Ordered.processedIds (q :: m) s.questions =
            Ordered.processedIds m s.questions := by
          unfold Ordered.processedIds
          rw [List.filterMap_cons, if_pos hq]
        have hplan : Ordered.plannedRows f s.questions (q :: m) c =
            Ordered.plannedRows f s.questions m c := by
          rw [Ordered.plannedRows, if_pos hq]
        rw [hstep, hpids, hplan]
        exact ih s c hkeys' hids
      · cases hf : s.questions.find? (fun p => p.2 = q.1) with
        | none =>
            have hstep : Ordered.processQuestion f (s, c) q = (s, c) := by
              simp [Ordered.processQuestion, hq, hf]
            have hpids : Ordered.processedIds (q :: m) s.questions =
                Ordered.processedIds m s.questions := by
              unfold Ordered.processedIds
              rw [List.filterMap_cons, if_neg hq, hf]
              rfl
            have hplan : Ordered.plannedRows f s.questions (q :: m) c =
                Ordered.plannedRows f s.questions m c := by
              rw [Ordered.plannedRows, if_neg hq, hf]
            rw [hstep, hpids, hplan]
            exact ih s c hkeys' hids
        | some qrow =>
            have hstep : Ordered.processQuestion f (s, c) q =
                ({ s with links := s.links.filter (fun r => ¬ r.questionId = qrow.1) ++
                    (Ordered.insertRows qrow.1 f q.2 0 c).1 },
                  (Ordered.insertRows qrow.1 f q.2 0 c).2) := by
              simp [Ordered.processQuestion, hq, hf]
            have hpids : Ordered.processedIds (q :: m) s.questions =
                qrow.1 :: Ordered.processedIds m s.questions := by
              unfold Ordered.processedIds
              rw [List.filterMap_cons, if_neg hq, hf]
              rfl
            have hplan : Ordered.plannedRows f s.questions (q :: m) c =
                ((Ordered.insertRows qrow.1 f q.2 0 c).1 ++
                  (Ordered.plannedRows f s.questions m
                    (Ordered.insertRows qrow.1 f q.2 0 c).2).1,
                 (Ordered.plannedRows f s.questions m
                    (Ordered.insertRows qrow.1 f q.2 0 c).2).2) := by
              rw [Ordered.plannedRows, if_neg hq, hf]
            obtain ⟨ihq, ihe, ihl, ihc⟩ :=
              ih { s with links := s.links.filter (fun r => ¬ r.questionId = qrow.1) ++
                    (Ordered.insertRows qrow.1 f q.2 0 c).1 }
                (Ordered.insertRows qrow.1 f q.2 0 c).2 hkeys' hids
            rw [hstep]
            refine ⟨ihq, ihe, ?_, ?_⟩
            · rw [ihl, hpids, hplan]
              show (s.links.filter (fun r => ¬ r.questionId = qrow.1) ++
                  (Ordered.insertRows qrow.1 f q.2 0 c).1).filter _ ++ _ = _
              rw [List.filter_append, List.filter_filter]
              have hF1 : s.links.filter (fun r =>
                    decide (¬ (Ordered.processedIds m s.questions).contains r.questionId = true) &&
                    decide (¬ r.questionId = qrow.1)) =
                  s.links.filter (fun r =>
                    ¬ (qrow.1 :: Ordered.processedIds m s.questions).contains r.questionId) := by
                apply List.filter_congr
                intro r _
                by_cases h1 : (Ordered.processedIds m s.questions).contains r.questionId = true <;>
                  by_cases h2 : r.questionId = qrow.1 <;>
                    simp [List.contains_cons, h1, h2]
              have hF2 : ((Ordered.insertRows qrow.1 f q.2 0 c).1).filter (fun r =>
                    ¬ (Ordered.processedIds m s.questions).contains r.questionId = true) =
                  (Ordered.insertRows qrow.1 f q.2 0 c).1 := by
                apply List.filter_eq_self.mpr
                intro r hr
                have hrq := insertRows_qid qrow.1 f q.2 0 c r hr
                have hnot := find_id_not_in_processedIds m s.questions q.1 qrow hf hids hknotin
                simp [hrq, List.elem_iff]
                exact hnot
              rw [hF1, hF2, List.append_assoc]
            · rw [ihc, hplan]

/-- Processed ids, empty-list step. -/
theorem processedIds_cons_skip (q : String × List String) (m : List (String × List String))
    (qs : List (String × String)) (hq : q.2.length = 0) :
    Ordered.processedIds (q :: m) qs = Ordered.processedIds m qs := by
  unfold Ordered.processedIds
  rw [List.filterMap_cons, if_pos hq]

/-- Processed ids, unresolved-question step. -/
theorem processedIds_cons_none (q : String × List String) (m : List (String × List String))
    (qs : List (String × String)) (hq : ¬ q.2.length = 0)
    (hf : qs.find? (fun p => p.2 = q.1) = none) :
    Ordered.processedIds (q :: m) qs = Ordered.processedIds m qs := by
  unfold Ordered.processedIds
  rw [List.filterMap_cons, if_neg hq, hf]
  rfl

/-- Processed ids, resolved-question step. -/
theorem processedIds_cons_some (q : String × List String) (m : List (String × List String))
    (qs : List (String × String)) (qrow : String × String) (hq : ¬ q.2.length = 0)
    (hf : qs.find? (fun p => p.2 = q.1) = some qrow) :
    Ordered.processedIds (q :: m) qs = qrow.1 :: Ordered.processedIds m qs := by
  unfold Ordered.processedIds
  rw [List.filterMap_cons, if_neg hq, hf]
  rfl

/-- The projection of the planned rows does not depend on the fresh-id
counter. -/
theorem plannedRows_proj (f : Fs) (qs : List (String × String))
    (m : List (String × List String)) :
    ∀ c₁ c₂, ((Ordered.plannedRows f qs m c₁).1).map Ordered.projRow =
      ((Ordered.plannedRows f qs m c₂).1).map Ordered.projRow := by
  induction m with
  | nil =>
      intro c₁ c₂
      rfl
  | cons q m ih =>
      intro c₁ c₂
      by_cases hq : q.2.length = 0
      · rw [Ordered.plannedRows, Ordered.plannedRows, if_pos hq, if_pos hq]
        exact ih c₁ c₂
      · cases hf : qs.find? (fun p => p.2 = q.1) with
        | none =>
            rw [Ordered.plannedRows, Ordered.plannedRows, if_neg hq, if_neg hq, hf]
            exact ih c₁ c₂
        | some qrow =>
            rw [Ordered.plannedRows, Ordered.plannedRows, if_neg hq, if_neg hq, hf]
            show ((Ordered.insertRows qrow.1 f q.2 0 c₁).1 ++ _).map Ordered.projRow =
              ((Ordered.insertRows qrow.1 f q.2 0 c₂).1 ++ _).map Ordered.projRow
            rw [List.map_append, List.map_append, insertRows_proj qrow.1 f q.2 0 c₁ c₂,
              ih (Ordered.insertRows qrow.1 f q.2 0 c₁).2 (Ordered.insertRows qrow.1 f q.2 0 c₂).2]

/-- Every planned row belongs to a processed question. -/
theorem plannedRows_qid_mem (f : Fs) (qs : List (String × String))
    (m : List (String × List String)) :
    ∀ c r, r ∈ (Ordered.plannedRows f qs m c).1 →
      r.questionId ∈ Ordered.processedIds m qs := by
  induction m with
  | nil =>
      intro c r hr
      cases hr
  | cons q m ih =>
      intro c r hr
      by_cases hq : q.2.length = 0
      · rw [Ordered.plannedRows, if_pos hq] at hr
        rw [processedIds_cons_skip q m qs hq]
        exact ih _ r hr
      · cases hf : qs.find? (fun p => p.2 = q.1) with
        | none =>
            rw [Ordered.plannedRows, if_neg hq, hf] at hr
            rw [processedIds_cons_none q m qs hq hf]
            exact ih _ r hr
        | some qrow =>
            rw [Ordered.plannedRows, if_neg hq, hf] at hr
            rw [processedIds_cons_some q m qs qrow hq hf]
            have hr2 : r ∈ (Ordered.insertRows qrow.1 f q.2 0 c).1 ++
                (Ordered.plannedRows f qs m (Ordered.insertRows qrow.1 f q.2 0 c).2).1 := hr
            rcases List.mem_append.mp hr2 with h | h
            · exact List.mem_cons.mpr (Or.inl (insertRows_qid qrow.1 f q.2 0 c r h))
            · exact List.mem_cons.mpr (Or.inr (ih _ r h))

/-- Phase 1 of the ordered sync is a sequence of upserts of the resolved
file payloads. -/
theorem upsertPhase_applyU (f : Fs) (files : List String) :
    ∀ es, Ordered.upsertPhase f files es =
      applyU (files.filterMap (fun fl =>
        (f.lookup fl).map (fun c => (Ordered.generateExplanationId fl, c)))) es := by
  induction files with
  | nil =>
      intro es
      rfl
  | cons fl rest ih =>
      intro es
      rw [List.filterMap_cons]
      cases hl : f.lookup fl with
      | none =>
          have h1 : Ordered.upsertPhase f (fl :: rest) es = Ordered.upsertPhase f rest es := by
            unfold Ordered.upsertPhase
            rw [List.foldl_cons, hl]
          rw [h1, ih es]
          rfl
      | some c0 =>
          have h1 : Ordered.upsertPhase f (fl :: rest) es =
              Ordered.upsertPhase f rest
                (upsertRow es (Ordered.generateExplanationId fl) c0) := by
            unfold Ordered.upsertPhase
            rw [List.foldl_cons, hl]
          rw [h1, ih _]
          rfl

/-- Behaviour of one ordered full sync run: questions untouched,
explanations upserted, processed questions' rows replaced by the planned
rows, counter advanced accordingly. -/
theorem runOrdered_spec (m : List (String × List String)) (f : Fs) (s : Ordered.OStore)
    (ctr : Nat) (hkeys : (m.map Prod.fst).Nodup)
    (hids : (s.questions.map Prod.fst).Nodup) :
    (Ordered.runOrdered m f s ctr).1.questions = s.questions ∧
    (Ordered.runOrdered m f s ctr).1.explanations =
      Ordered.upsertPhase f (Ordered.uniqueFiles m) s.explanations ∧
    (Ordered.runOrdered m f s ctr).1.links =
      s.links.filter
        (fun r => ¬ (Ordered.processedIds m s.questions).contains r.questionId) ++
        (Ordered.plannedRows f s.questions m ctr).1 ∧
    (Ordered.runOrdered m f s ctr).2 = (Ordered.plannedRows f s.questions m ctr).2 := by
  have h := foldl_processQuestion_spec f m
    { s with explanations := Ordered.upsertPhase f (Ordered.uniqueFiles m) s.explanations }
    ctr hkeys hids
  exact ⟨h.1, h.2.1, h.2.2.1, h.2.2.2⟩

/-- Filtering twice by the same predicate filters once. -/
theorem filter_idem {α : Type} (l : List α) (p : α → Bool) :
    (l.filter p).filter p = l.filter p := by
  rw [List.filter_filter]
  exact List.filter_congr (fun a _ => Bool.and_self (p a))

/-- Running the ordered full sync twice gives the same store up to the
synthetic join-row ids. -/
theorem runOrdered_proj_idem (m : List (String × List String)) (f : Fs)
    (os : Ordered.OStore) (ctr : Nat) (hkeys : (m.map Prod.fst).Nodup)
    (hids : (os.questions.map Prod.fst).Nodup) :
    Ordered.projStore (Ordered.runOrdered m f (Ordered.runOrdered m f os ctr).1
        (Ordered.runOrdered m f os ctr).2).1 =
      Ordered.projStore (Ordered.runOrdered m f os ctr).1 := by
  obtain ⟨hq1, he1, hl1, hc1⟩ := runOrdered_spec m f os ctr hkeys hids
  have hids1 : ((Ordered.runOrdered m f os ctr).1.questions.map Prod.fst).Nodup := by
    rw [hq1]
    exact hids
  obtain ⟨hq2, he2, hl2, hc2⟩ := runOrdered_spec m f (Ordered.runOrdered m f os ctr).1
    (Ordered.runOrdered m f os ctr).2 hkeys hids1
  have he : (Ordered.runOrdered m f (Ordered.runOrdered m f os ctr).1
      (Ordered.runOrdered m f os ctr).2).1.explanations =
      (Ordered.runOrdered m f os ctr).1.explanations := by
    rw [he2, he1, upsertPhase_applyU, upsertPhase_applyU]
    exact applyU_idem_aux _ [] os.explanations
  have hq : (Ordered.runOrdered m f (Ordered.runOrdered m f os ctr).1
      (Ordered.runOrdered m f os ctr).2).1.questions =
      (Ordered.runOrdered m f os ctr).1.questions := by
    rw [hq2, hq1]
  have hlp : (Ordered.runOrdered m f (Ordered.runOrdered m f os ctr).1
      (Ordered.runOrdered m f os ctr).2).1.links.map Ordered.projRow =
      (Ordered.runOrdered m f os ctr).1.links.map Ordered.projRow := by
    rw [hl2, hq1, hl1, List.filter_append, filter_idem]
    have hnil : ((Ordered.plannedRows f os.questions m ctr).1).filter
        (fun r => ¬ (Ordered.processedIds m os.questions).contains r.questionId) = [] := by
      apply List.filter_eq_nil_iff.mpr
      intro r hr
      have := plannedRows_qid_mem f os.questions m ctr r hr
      simp [List.elem_iff]
      exact this
    rw [hnil, List.append_nil, List.map_append, List.map_append,
      plannedRows_proj f os.questions m (Ordered.runOrdered m f os ctr).2 ctr]
  rw [Ordered.projStore, Ordered.projStore, he, hq, hlp]

/-- C4, amended: applying a full resync twice leaves the store state
after the second run identical to the state after the first, exactly so
for the single-link variant, and up to the synthetic `uuidv4` join-row
primary keys for the ordered variant (same explanations, same questions,
and the same join rows with the same `(question, explanation, order)`
content, count and order). -/
theorem c4_resync_idempotent (meta : List MetaEntry) (files : Fs) (s : Store)
    (m : List (String × List String)) (fmap : Fs) (os : Ordered.OStore) (ctr : Nat)
    (hkeys : (m.map Prod.fst).Nodup) (hids : (os.questions.map Prod.fst).Nodup) :
    FullSync.runFull meta files (FullSync.runFull meta files s) =
      FullSync.runFull meta files s ∧
    Ordered.projStore (Ordered.runOrdered m fmap (Ordered.runOrdered m fmap os ctr).1
        (Ordered.runOrdered m fmap os ctr).2).1 =
      Ordered.projStore (Ordered.runOrdered m fmap os ctr).1 :=
  ⟨runFull_idem meta files s, runOrdered_proj_idem m fmap os ctr hkeys hids⟩

/-- C4, witness data: a one-entry manifest for each variant. -/
theorem c4_resync_idempotent_witness :
    (((([("Q", ["a.md"])] : List (String × List String)).map Prod.fst).Nodup ∧
      ((⟨[], [("q1", "Q")], []⟩ : Ordered.OStore).questions.map Prod.fst).Nodup) ∧
    (FullSync.runFull [⟨"a.md", ["Q1"]⟩] [("a.md", "x")]
        (FullSync.runFull [⟨"a.md", ["Q1"]⟩] [("a.md", "x")]
          ⟨[], [⟨"q1", "Q1", none⟩]⟩) =
      FullSync.runFull [⟨"a.md", ["Q1"]⟩] [("a.md", "x")] ⟨[], [⟨"q1", "Q1", none⟩]⟩ ∧
    Ordered.projStore (Ordered.runOrdered [("Q", ["a.md"])] [("a.md", "x")]
        (Ordered.runOrdered [("Q", ["a.md"])] [("a.md", "x")] ⟨[], [("q1", "Q")], []⟩ 0).1
        (Ordered.runOrdered [("Q", ["a.md"])] [("a.md", "x")] ⟨[], [("q1", "Q")], []⟩ 0).2).1 =
      Ordered.projStore (Ordered.runOrdered [("Q", ["a.md"])] [("a.md", "x")]
        ⟨[], [("q1", "Q")], []⟩ 0).1)) :=
  ⟨⟨by decide, by decide⟩,
    c4_resync_idempotent [⟨"a.md", ["Q1"]⟩] [("a.md", "x")] ⟨[], [⟨"q1", "Q1", none⟩]⟩
      [("Q", ["a.md"])] [("a.md", "x")] ⟨[], [("q1", "Q")], []⟩ 0 (by decide) (by decide)⟩

/-- The planned rows restricted to one fully resolvable question are
exactly its declared sequence with consecutive orders. -/
theorem plannedRows_filter_for (f : Fs) (qs : List (String × String)) (extQ iq : String)
    (fl : List String) (hids : (qs.map Prod.fst).Nodup)
    (hfind : qs.find? (fun p => p.2 = extQ) = some (iq, extQ))
    (hfl : ¬ fl.length = 0) (hall : ∀ g ∈ fl, (f.lookup g).isSome = true) :
    ∀ (m : List (String × List String)) (c : Nat), (m.map Prod.fst).Nodup →
      (extQ, fl) ∈ m →
      ((Ordered.plannedRows f qs m c).1.filter (fun r => r.questionId = iq)).map
          Ordered.projRow =
        (fl.enumFrom 0).map (fun p => (iq, Ordered.generateExplanationId p.2, p.1)) := by
  intro m
  induction m with
  | nil =>
      intro c _ hm
      cases hm
  | cons k m ih =>
      intro c hkeys hm
      have hkeys' : (m.map Prod.fst).Nodup := by
        rw [List.map_cons, List.nodup_cons] at hkeys
        exact hkeys.2
      have hknotin : k.1 ∉ m.map Prod.fst := by
        rw [List.map_cons, List.nodup_cons] at hkeys
        exact hkeys.1
      rcases List.mem_cons.mp hm with hm | hm
      · subst hm
        rw [Ordered.plannedRows, if_neg hfl, hfind]
        show (((Ordered.insertRows iq f fl 0 c).1 ++
            (Ordered.plannedRows f qs m (Ordered.insertRows iq f fl 0 c).2).1).filter
              (fun r => r.questionId = iq)).map Ordered.projRow = _
        rw [List.filter_append]
        have h1 : (Ordered.insertRows iq f fl 0 c).1.filter
            (fun r => r.questionId = iq) = (Ordered.insertRows iq f fl 0 c).1 :=
          List.filter_eq_self.mpr (fun r hr => by simp [insertRows_qid iq f fl 0 c r hr])
        have hnot : iq ∉ Ordered.processedIds m qs :=
          find_id_not_in_processedIds m qs extQ (iq, extQ) hfind hids hknotin
        have h2 : (Ordered.plannedRows f qs m (Ordered.insertRows iq f fl 0 c).2).1.filter
            (fun r => r.questionId = iq) = [] := by
          apply List.filter_eq_nil_iff.mpr
          intro r hr
          have hmem := plannedRows_qid_mem f qs m _ r hr
          simp only [decide_eq_true_eq]
          intro hreq
          exact hnot (hreq ▸ hmem)
        rw [h1, h2, List.append_nil]
        exact insertRows_all_present iq f fl hall 0 c
      · have hkne : ¬ k.1 = extQ := by
          intro he
          exact hknotin (he ▸ List.mem_map.mpr ⟨(extQ, fl), hm, rfl⟩)
        by_cases hk0 : k.2.length = 0
        · rw [Ordered.plannedRows, if_pos hk0]
          exact ih c hkeys' hm
        · cases hkf : qs.find? (fun p => p.2 = k.1) with
          | none =>
              rw [Ordered.plannedRows, if_neg hk0, hkf]
              exact ih c hkeys' hm
          | some rowk =>
              rw [Ordered.plannedRows, if_neg hk0, hkf]
              show (((Ordered.insertRows rowk.1 f k.2 0 c).1 ++
                  (Ordered.plannedRows f qs m
                    (Ordered.insertRows rowk.1 f k.2 0 c).2).1).filter
                    (fun r => r.questionId = iq)).map Ordered.projRow = _
              rw [List.filter_append]
              have hrow : ¬ rowk.1 = iq := by
                intro he
                have h1 : rowk ∈ qs := List.mem_of_find?_eq_some hkf
                have h2 : (iq, extQ) ∈ qs := List.mem_of_find?_eq_some hfind
                have h3 : rowk.2 = k.1 := by simpa using List.find?_some hkf
                have h4 : rowk = (iq, extQ) := List.inj_on_of_nodup_map hids h1 h2 he
                exact hkne (by rw [← h3, h4])
              have h1 : (Ordered.insertRows rowk.1 f k.2 0 c).1.filter
                  (fun r => r.questionId = iq) = [] := by
                apply List.filter_eq_nil_iff.mpr
                intro r hr
                have hq := insertRows_qid rowk.1 f k.2 0 c r hr
                simp only [decide_eq_true_eq, hq]
                exact hrow
              rw [h1, List.nil_append]
              exact ih _ hkeys' hm

/-- C9, amended: after an ordered full sync, every manifest question with
a nonempty declared list that resolves in the store and whose declared
files are all loadable has stored links exactly matching the declared
sequence, with order values 0,1,2,... in declared order — no gaps and no
duplicates.  (A question with an empty declared list is skipped and keeps
whatever links it had.) -/
theorem c9_ordered_links_match_manifest (m : List (String × List String)) (f : Fs)
    (s : Ordered.OStore) (ctr : Nat) (extQ iq : String) (fl : List String)
    (hkeys : (m.map Prod.fst).Nodup) (hids : (s.questions.map Prod.fst).Nodup)
    (hm : (extQ, fl) ∈ m) (hfl : ¬ fl.length = 0)
    (hfind : s.questions.find? (fun p => p.2 = extQ) = some (iq, extQ))
    (hall : ∀ g ∈ fl, (f.lookup g).isSome = true) :
    ((Ordered.runOrdered m f s ctr).1.links.filter (fun r => r.questionId = iq)).map
        Ordered.projRow =
      (fl.enumFrom 0).map (fun p => (iq, Ordered.generateExplanationId p.2, p.1)) := by
  obtain ⟨hq1, he1, hl1, hc1⟩ := runOrdered_spec m f s ctr hkeys hids
  rw [hl1, List.filter_append]
  have hiq : iq ∈ Ordered.processedIds m s.questions :=
    List.mem_filterMap.mpr ⟨(extQ, fl), hm, by rw [if_neg hfl, hfind]; rfl⟩
  have h1 : (s.links.filter (fun r =>
      ¬ (Ordered.processedIds m s.questions).contains r.questionId)).filter
      (fun r => r.questionId = iq) = [] := by
    apply List.filter_eq_nil_iff.mpr
    intro r hr
    have h2 := (List.mem_filter.mp hr).2
    simp only [decide_eq_true_eq] at h2 ⊢
    intro he
    rw [List.elem_iff] at h2
    exact h2 (he ▸ hiq)
  rw [h1, List.nil_append]
  exact plannedRows_filter_for f s.questions extQ iq fl hids hfind hfl hall m ctr hkeys hm

/-- C9, witness data: one question with one declared, loadable file. -/
theorem c9_ordered_links_match_manifest_witness :
    (((([("Q", ["a.md"])] : List (String × List String)).map Prod.fst).Nodup ∧
      ((⟨[], [("q1", "Q")], []⟩ : Ordered.OStore).questions.map Prod.fst).Nodup ∧
      ("Q", ["a.md"]) ∈ ([("Q", ["a.md"])] : List (String × List String)) ∧
      ¬ (["a.md"] : List String).length = 0 ∧
      (⟨[], [("q1", "Q")], []⟩ : Ordered.OStore).questions.find?
        (fun p => p.2 = "Q") = some ("q1", "Q") ∧
      (∀ g ∈ (["a.md"] : List String), ((([("a.md", "x")] : Fs)).lookup g).isSome = true)) ∧
    ((Ordered.runOrdered [("Q", ["a.md"])] [("a.md", "x")]
        ⟨[], [("q1", "Q")], []⟩ 0).1.links.filter (fun r => r.questionId = "q1")).map
        Ordered.projRow =
      ((["a.md"] : List String).enumFrom 0).map
        (fun p => ("q1", Ordered.generateExplanationId p.2, p.1))) :=
  ⟨⟨by decide, by decide, by decide, by decide, by decide, by decide⟩,
    c9_ordered_links_match_manifest [("Q", ["a.md"])] [("a.md", "x")]
      ⟨[], [("q1", "Q")], []⟩ 0 "Q" "q1" ["a.md"] (by decide) (by decide) (by decide)
      (by decide) (by decide) (by decide)⟩

end Pplka
